import Mathlib

/-!
# Verification of the Grigorchuk-group engine (rogueviz/grigorchuk.cpp)

Shallow embedding of the algebraic core of the Grigorchuk-group map:

* the Word Reducer (`add`, `reduce`) over the generator alphabet {a,b,c,d},
* the Splitter (`split`) implementing the self-similar tree action,
* the Word-Problem Decider (`empt`), modelled with explicit fuel since the
  C++ function recurses on the two halves produced by `split`,
* the Canonical Form Store (`lookup`) over an arena of `RepNode` records
  addressed by `Nat` handles (handle 0..4 are the five static
  representatives `grig_I`, `grig_a`, `grig_b`, `grig_c`, `grig_d`;
  `all_reps` is the tail of the arena, append-only),
* the Multiplier (`mulF`, fuel-indexed),
* the Cayley-Layer Enumerator (`prepare` / `prepLoop` / `visit`),
* the Lazy Graph Adapter (`stepF` over `AdState`).

C++ strings grow at the back; words are `List Char` and the reducer buffers
are kept reversed (head = `s.back()`), with `reduce`/`split` reversing the
buffers back so that their results are in the same order as the C++ strings.
-/

/-- The merge rule of the Word Reducer: `s.back() = s.back() ^ c ^ 'd' ^ 'b' ^ 'c'`.
C++ `char` is 8 bits, hence the reduction mod 256. On two distinct symbols of
{b,c,d} this produces the third one. -/
def mergeChar (x c : Char) : Char :=
  Char.ofNat ((x.toNat ^^^ c.toNat ^^^ 'd'.toNat ^^^ 'b'.toNat ^^^ 'c'.toNat) % 256)

/-- `void add(string& s, char c)` of grigorchuk.cpp, on a reversed buffer
(head of the list = last character of the C++ string). -/
def addR (s : List Char) (c : Char) : List Char :=
  match s with
  | [] => [c]
  | x :: t =>
    if c = x then t
    else if c ≠ 'a' ∧ x ≠ 'a' then mergeChar x c :: t
    else c :: x :: t

/-- `string reduce(const string& x)`: fold `add` over the word, reversed buffer. -/
def reduceR (w : List Char) : List Char :=
  w.foldl addR []

/-- `string reduce(const string& x)`, result in C++ string order. -/
def reduce (w : List Char) : List Char :=
  (reduceR w).reverse

/-- One step of `splitter split(string s)`: the body of the `for(char c: s)` loop.
State is `(swapped, s0, s1)` with both buffers reversed. -/
def splitStep (st : Bool × List Char × List Char) (c : Char) : Bool × List Char × List Char :=
  if c = 'b' then
    (st.1, addR st.2.1 (if st.1 then 'a' else 'c'), addR st.2.2 (if st.1 then 'c' else 'a'))
  else if c = 'c' then
    (st.1, addR st.2.1 (if st.1 then 'a' else 'd'), addR st.2.2 (if st.1 then 'd' else 'a'))
  else if c = 'd' then
    (if st.1 then (st.1, st.2.1, addR st.2.2 'b') else (st.1, addR st.2.1 'b', st.2.2))
  else if c = 'a' then
    (!st.1, st.2.1, st.2.2)
  else st

/-- The splitter fold, buffers still reversed. -/
def splitAcc (w : List Char) : Bool × List Char × List Char :=
  w.foldl splitStep (false, [], [])

/-- `splitter split(string s)`, with `s0`, `s1` in C++ string order. -/
def split (w : List Char) : Bool × List Char × List Char :=
  ((splitAcc w).1, (splitAcc w).2.1.reverse, (splitAcc w).2.2.reverse)

/-- `bool empt(const string& x)` with explicit fuel: one unit of fuel per call,
`none` when the call tree is deeper than the fuel. The C++ code computes
`split` first (the `Split(x)` macro) and then tests the base cases, exactly
as here. -/
def emptF : Nat → List Char → Option Bool
  | 0, _ => none
  | fuel + 1, x =>
    if x = [] then some true
    else if x = ['d'] then some false
    else if (split x).1 = true then some false
    else
      match emptF fuel (split x).2.1, emptF fuel (split x).2.2 with
      | some b0, some b1 => some (b0 && b1)
      | _, _ => none

/-- A generator symbol: one of {a,b,c,d}. -/
def isGen (c : Char) : Prop :=
  c = 'a' ∨ c = 'b' ∨ c = 'c' ∨ c = 'd'

instance (c : Char) : Decidable (isGen c) := by
  unfold isGen; infer_instance

/-- Number of `a` symbols in a word. -/
def countA (w : List Char) : Nat :=
  w.countP (fun c => c == 'a')

/-- Number of symbols from {b,c,d} in a word. -/
def countBCD (w : List Char) : Nat :=
  w.countP (fun c => c == 'b' || c == 'c' || c == 'd')

/-- The adjacency condition of a reduced word: the two symbols differ, and they
are not both distinct from `a` (for generator symbols this says they are not
both drawn from {b,c,d}). -/
def RedRel (x y : Char) : Prop := x ≠ y ∧ ¬(x ≠ 'a' ∧ y ≠ 'a')

/-- A word is reduced when every adjacent pair satisfies `RedRel`: no two
adjacent symbols are equal and no two adjacent symbols are both drawn
from {b,c,d}. -/
def Reduced (w : List Char) : Prop :=
  w.Chain' RedRel

/-! ## Lemmas about the Word Reducer -/

lemma addR_cons_pop {x : Char} {t : List Char} {c : Char} (h : c = x) :
    addR (x :: t) c = t := by
  simp [addR, h]

lemma addR_cons_merge {x : Char} {t : List Char} {c : Char}
    (h1 : c ≠ x) (h2 : c ≠ 'a') (h3 : x ≠ 'a') :
    addR (x :: t) c = mergeChar x c :: t := by
  simp [addR, h1, h2, h3]

lemma addR_cons_push {x : Char} {t : List Char} {c : Char}
    (h1 : c ≠ x) (h2 : ¬(c ≠ 'a' ∧ x ≠ 'a')) :
    addR (x :: t) c = c :: x :: t := by
  simp only [addR, if_neg h1, if_neg h2]

lemma addR_length (s : List Char) (c : Char) :
    (addR s c).length ≤ s.length + 1 := by
  cases s with
  | nil => simp [addR]
  | cons x t =>
    by_cases h : c = x
    · rw [addR_cons_pop h]; simp; omega
    · by_cases h2 : c ≠ 'a' ∧ x ≠ 'a'
      · rw [addR_cons_merge h h2.1 h2.2]; simp
      · rw [addR_cons_push h h2]; simp

/-- On two distinct non-`a` generators, the merge rule produces the third
element of {b,c,d}. -/
lemma mergeChar_bcd {x c : Char} (hx : isGen x) (hc : isGen c)
    (hxa : x ≠ 'a') (hca : c ≠ 'a') (hne : c ≠ x) :
    isGen (mergeChar x c) ∧ mergeChar x c ≠ 'a' := by
  rcases hx with rfl | rfl | rfl | rfl <;> rcases hc with rfl | rfl | rfl | rfl <;>
    first
      | exact absurd rfl hxa
      | exact absurd rfl hca
      | exact absurd rfl hne
      | exact ⟨by decide, by decide⟩

lemma redRel_symm {x y : Char} (h : RedRel x y) : RedRel y x := by
  obtain ⟨h1, h2⟩ := h
  exact ⟨fun e => h1 e.symm, fun e => h2 ⟨e.2, e.1⟩⟩

/-- `add` preserves: all symbols are generators, the buffer is reduced, and the
length grows by at most one. -/
lemma addR_invariant {s : List Char} {c : Char}
    (hs : ∀ d ∈ s, isGen d) (hred : s.Chain' RedRel) (hc : isGen c) :
    (∀ d ∈ addR s c, isGen d) ∧ (addR s c).Chain' RedRel := by
  cases s with
  | nil =>
    refine ⟨?_, ?_⟩
    · intro d hd; simp [addR] at hd; subst hd; exact hc
    · simp [addR]
  | cons x t =>
    by_cases h : c = x
    · rw [addR_cons_pop h]
      exact ⟨fun d hd => hs d (List.mem_cons_of_mem x hd), hred.tail⟩
    · by_cases h2 : c ≠ 'a' ∧ x ≠ 'a'
      · rw [addR_cons_merge h h2.1 h2.2]
        have hx : isGen x := hs x (List.mem_cons_self x t)
        obtain ⟨hmg, hma⟩ := mergeChar_bcd hx hc h2.2 h2.1 h
        refine ⟨?_, ?_⟩
        · intro d hd
          rcases List.mem_cons.mp hd with rfl | hd
          · exact hmg
          · exact hs d (List.mem_cons_of_mem x hd)
        · cases t with
          | nil => simp
          | cons y t2 =>
            rw [List.chain'_cons] at hred ⊢
            refine ⟨?_, hred.2⟩
            have hy : y = 'a' := by
              rcases hred.1 with ⟨_, hno⟩
              by_contra hya
              exact hno ⟨h2.2, hya⟩
            refine ⟨?_, ?_⟩
            · rw [hy]; exact hma
            · intro hcontra; exact hcontra.2 hy
      · rw [addR_cons_push h h2]
        refine ⟨?_, ?_⟩
        · intro d hd
          rcases List.mem_cons.mp hd with rfl | hd
          · exact hc
          · exact hs d hd
        · rw [List.chain'_cons]
          exact ⟨⟨h, fun e => h2 e⟩, hred⟩

/-- Folding `add` from a good buffer keeps the buffer good and grows it by at
most the number of symbols processed. -/
lemma reduceR_fold_invariant :
    ∀ (w : List Char) (s : List Char),
      (∀ d ∈ s, isGen d) → s.Chain' RedRel → (∀ d ∈ w, isGen d) →
      (∀ d ∈ w.foldl addR s, isGen d) ∧ (w.foldl addR s).Chain' RedRel ∧
        (w.foldl addR s).length ≤ s.length + w.length := by
  intro w
  induction w with
  | nil => intro s hs hred _; exact ⟨hs, hred, by simp⟩
  | cons c t ih =>
    intro s hs hred hw
    have hc : isGen c := hw c (List.mem_cons_self c t)
    obtain ⟨hs', hred'⟩ := addR_invariant hs hred hc
    have hlen := addR_length s c
    obtain ⟨h1, h2, h3⟩ := ih (addR s c) hs' hred'
      (fun d hd => hw d (List.mem_cons_of_mem c hd))
    refine ⟨by simpa using h1, by simpa using h2, ?_⟩
    simp only [List.foldl_cons, List.length_cons]
    omega

/-- C6. Word Reducer output shape: for every input word over {a,b,c,d},
`reduce(w)` is a word over the same alphabet whose length is at most the
length of `w`, containing no pair of adjacent equal symbols and no adjacent
pair of symbols both drawn from {b,c,d}. (`reduce` is a total function of the
embedding, so it never fails.) -/
theorem reduce_output_shape (w : List Char) (hw : ∀ c ∈ w, isGen c) :
    (reduce w).length ≤ w.length ∧ (∀ c ∈ reduce w, isGen c) ∧ Reduced (reduce w) := by
  obtain ⟨h1, h2, h3⟩ :=
    reduceR_fold_invariant w [] (by simp) (by simp) hw
  refine ⟨?_, ?_, ?_⟩
  · simpa [reduce, reduceR] using h3
  · intro c hc
    exact h1 c (by simpa [reduce, reduceR] using hc)
  · show (reduceR w).reverse.Chain' RedRel
    rw [List.chain'_reverse]
    exact h2.imp (fun a b h => redRel_symm h)

/-- C6 witness: a concrete run on the word `bcaabd`. -/
theorem reduce_output_shape_witness :
    (∀ c ∈ ['b', 'c', 'a', 'a', 'b', 'd'], isGen c) ∧
      (reduce ['b', 'c', 'a', 'a', 'b', 'd']).length ≤ 6 ∧
      (∀ c ∈ reduce ['b', 'c', 'a', 'a', 'b', 'd'], isGen c) ∧
      Reduced (reduce ['b', 'c', 'a', 'a', 'b', 'd']) :=
  ⟨by decide, reduce_output_shape ['b', 'c', 'a', 'a', 'b', 'd'] (by decide)⟩

/-- Folding `add` over an already reduced buffer rebuilds it unchanged. -/
lemma reduceR_fixpoint : ∀ (s : List Char), s.Chain' RedRel →
    reduceR s.reverse = s := by
  intro s
  induction s with
  | nil => intro _; rfl
  | cons x t ih =>
    intro hred
    have ht : reduceR t.reverse = t := ih hred.tail
    show List.foldl addR [] (x :: t).reverse = x :: t
    rw [List.reverse_cons, List.foldl_append]
    show addR (reduceR t.reverse) x = x :: t
    rw [ht]
    cases t with
    | nil => rfl
    | cons y t2 =>
      have hrel : RedRel x y := (List.chain'_cons.mp hred).1
      exact addR_cons_push hrel.1 hrel.2

/-- C7. Reduction idempotence: for every word over {a,b,c,d},
`reduce(reduce(w)) = reduce(w)`. -/
theorem reduce_idempotent (w : List Char) (hw : ∀ c ∈ w, isGen c) :
    reduce (reduce w) = reduce w := by
  obtain ⟨h1, h2, h3⟩ :=
    reduceR_fold_invariant w [] (by simp) (by simp) hw
  show (reduceR (reduceR w).reverse).reverse = reduce w
  rw [reduceR_fixpoint (reduceR w) h2]
  rfl

/-- C7 witness: a concrete run on the word `bcaabd`. -/
theorem reduce_idempotent_witness :
    (∀ c ∈ ['b', 'c', 'a', 'a', 'b', 'd'], isGen c) ∧
      reduce (reduce ['b', 'c', 'a', 'a', 'b', 'd']) = reduce ['b', 'c', 'a', 'a', 'b', 'd'] :=
  ⟨by decide, reduce_idempotent ['b', 'c', 'a', 'a', 'b', 'd'] (by decide)⟩

/-! ## The Splitter: routing of `b` (claim C2) -/

/-- C2 counterexample: the Splitter routes `b` the other way round: with the
swap flag false it appends `c` to `s0` and `a` to `s1`, so
`split("b") = (false, "c", "a")`, not `(false, "a", "c")` as claimed. -/
theorem split_b_counterexample :
    split ['b'] ≠ (false, ['a'], ['c']) ∧ split ['b'] = (false, ['c'], ['a']) := by
  decide

/-- C2 (amended). Splitter routing of the symbol `b`: for every input word,
when `split` processes a symbol `b` it appends (with the Word Reducer's append
rule `add`) the symbol `c` to `s0` and `a` to `s1` when the running swap flag
is false, and `a` to `s0` and `c` to `s1` when the swap flag is true; in
particular `split("b") = (false, "c", "a")`. -/
theorem split_routes_b :
    (∀ w : List Char,
      splitAcc (w ++ ['b']) =
        ((splitAcc w).1,
          addR (splitAcc w).2.1 (if (splitAcc w).1 then 'a' else 'c'),
          addR (splitAcc w).2.2 (if (splitAcc w).1 then 'c' else 'a'))) ∧
      split ['b'] = (false, ['c'], ['a']) := by
  constructor
  · intro w
    show (w ++ ['b']).foldl splitStep (false, [], []) = _
    rw [List.foldl_append]
    show splitStep (splitAcc w) 'b' = _
    simp [splitStep]
  · decide

/-! ## Termination of the Word-Problem Decider (claim C4) -/

/-- Whether a symbol is the tree-swap generator `a`. -/
def isA (c : Char) : Bool := c == 'a'

/-- 1 when the buffer is nonempty and its most recent symbol has the given
`a`-ness, else 0. Appending a symbol of the type recorded by `brk` never
lengthens the buffer (it pops or merges instead). -/
def brk : List Char → Bool → Nat
  | [], _ => 0
  | c :: _, σ => if isA c = σ then 1 else 0

lemma brk_le_one (s : List Char) (σ : Bool) : brk s σ ≤ 1 := by
  cases s with
  | nil => exact Nat.zero_le 1
  | cons c t => simp only [brk]; split <;> omega

/-- Appending a symbol whose `a`-ness matches the current side type does not
increase the `length - brk` potential of the buffer. -/
lemma addR_same_type {s : List Char} {c : Char} {σ : Bool} {k : Nat}
    (hs : ∀ d ∈ s, isGen d) (hc : isGen c) (hcs : isA c = σ)
    (hlen : s.length ≤ k + brk s σ) :
    (∀ d ∈ addR s c, isGen d) ∧ (addR s c).length ≤ k + brk (addR s c) σ := by
  cases s with
  | nil =>
    refine ⟨?_, ?_⟩
    · intro d hd; simp [addR] at hd; subst hd; exact hc
    · simp [addR, brk, hcs]
  | cons x t =>
    have hx : isGen x := hs x (List.mem_cons_self x t)
    by_cases hax : isA x = σ
    · have hbrk : brk (x :: t) σ = 1 := by simp [brk, hax]
      rw [hbrk] at hlen
      by_cases hcx : c = x
      · rw [addR_cons_pop hcx]
        refine ⟨fun d hd => hs d (List.mem_cons_of_mem x hd), ?_⟩
        have h2 : t.length ≤ k := by
          have h3 : t.length + 1 ≤ k + 1 := by simpa using hlen
          omega
        exact le_trans h2 (Nat.le_add_right k _)
      · cases σ with
        | true =>
          exfalso
          have hca : c = 'a' := by simpa [isA] using hcs
          have hxa : x = 'a' := by simpa [isA] using hax
          exact hcx (hca.trans hxa.symm)
        | false =>
          have hca : c ≠ 'a' := by simpa [isA] using hcs
          have hxa : x ≠ 'a' := by simpa [isA] using hax
          rw [addR_cons_merge hcx hca hxa]
          obtain ⟨hmg, hma⟩ := mergeChar_bcd hx hc hxa hca hcx
          refine ⟨?_, ?_⟩
          · intro d hd
            rcases List.mem_cons.mp hd with rfl | hd
            · exact hmg
            · exact hs d (List.mem_cons_of_mem x hd)
          · have : brk (mergeChar x c :: t) false = 1 := by simp [brk, isA, hma]
            rw [this]
            simpa using hlen
    · have hbrk : brk (x :: t) σ = 0 := by simp [brk, hax]
      rw [hbrk] at hlen
      have hcx : c ≠ x := by
        intro he; exact hax (he ▸ hcs)
      have hpush : ¬(c ≠ 'a' ∧ x ≠ 'a') := by
        cases σ with
        | true =>
          have hca : c = 'a' := by simpa [isA] using hcs
          exact fun hcon => hcon.1 hca
        | false =>
          have hxa : x = 'a' := by
            have : isA x = true := by
              cases hax2 : isA x with
              | true => rfl
              | false => exact absurd hax2 hax
            simpa [isA] using this
          exact fun hcon => hcon.2 hxa
      rw [addR_cons_push hcx hpush]
      refine ⟨?_, ?_⟩
      · intro d hd
        rcases List.mem_cons.mp hd with rfl | hd
        · exact hc
        · exact hs d hd
      · have : brk (c :: x :: t) σ = 1 := by simp [brk, hcs]
        rw [this]
        have h3 : t.length + 1 ≤ k := by simpa using hlen
        simp only [List.length_cons]
        omega

/-- The running invariant of the Splitter fold: both buffers hold generator
symbols only, and each buffer's `length - brk` potential is at most the
number of `a` symbols consumed so far (`k`). Side `s0` receives symbols whose
`a`-ness equals the current swap flag, side `s1` symbols of the opposite
`a`-ness. -/
def SplitInv (k : Nat) (st : Bool × List Char × List Char) : Prop :=
  (∀ d ∈ st.2.1, isGen d) ∧ (∀ d ∈ st.2.2, isGen d) ∧
    st.2.1.length ≤ k + brk st.2.1 st.1 ∧ st.2.2.length ≤ k + brk st.2.2 (!st.1)

lemma splitInv_mono {k k' : Nat} {st : Bool × List Char × List Char}
    (h : SplitInv k st) (hk : k ≤ k') : SplitInv k' st := by
  obtain ⟨h1, h2, h3, h4⟩ := h
  refine ⟨h1, h2, ?_, ?_⟩
  · exact le_trans h3 (by omega)
  · exact le_trans h4 (by omega)

lemma splitStep_inv {k : Nat} {st : Bool × List Char × List Char} {c : Char}
    (h : SplitInv k st) :
    SplitInv (k + (if c = 'a' then 1 else 0)) (splitStep st c) := by
  obtain ⟨sw, s0, s1⟩ := st
  obtain ⟨h1, h2, h3, h4⟩ := h
  by_cases hb : c = 'b'
  · subst hb
    show SplitInv (k + 0)
      (sw, addR s0 (if sw then 'a' else 'c'), addR s1 (if sw then 'c' else 'a'))
    obtain ⟨g1, g2⟩ := @addR_same_type s0 (if sw then 'a' else 'c') sw k h1
      (by cases sw <;> decide) (by cases sw <;> decide) h3
    obtain ⟨g3, g4⟩ := @addR_same_type s1 (if sw then 'c' else 'a') (!sw) k h2
      (by cases sw <;> decide) (by cases sw <;> decide) h4
    exact ⟨g1, g3, g2, g4⟩
  · by_cases hcc : c = 'c'
    · subst hcc
      show SplitInv (k + 0)
        (sw, addR s0 (if sw then 'a' else 'd'), addR s1 (if sw then 'd' else 'a'))
      obtain ⟨g1, g2⟩ := @addR_same_type s0 (if sw then 'a' else 'd') sw k h1
        (by cases sw <;> decide) (by cases sw <;> decide) h3
      obtain ⟨g3, g4⟩ := @addR_same_type s1 (if sw then 'd' else 'a') (!sw) k h2
        (by cases sw <;> decide) (by cases sw <;> decide) h4
      exact ⟨g1, g3, g2, g4⟩
    · by_cases hd : c = 'd'
      · subst hd
        cases sw with
        | false =>
          show SplitInv (k + 0) (false, addR s0 'b', s1)
          obtain ⟨g1, g2⟩ := @addR_same_type s0 'b' false k h1
            (by decide) (by decide) h3
          exact ⟨g1, h2, g2, h4⟩
        | true =>
          show SplitInv (k + 0) (true, s0, addR s1 'b')
          obtain ⟨g3, g4⟩ := @addR_same_type s1 'b' (!true) k h2
            (by decide) (by decide) h4
          exact ⟨h1, g3, h3, g4⟩
      · by_cases ha : c = 'a'
        · subst ha
          show SplitInv (k + 1) (!sw, s0, s1)
          refine ⟨h1, h2, ?_, ?_⟩
          · show s0.length ≤ k + 1 + brk s0 (!sw)
            have e1 := brk_le_one s0 sw
            have e2 : s0.length ≤ k + brk s0 sw := h3
            have e3 : s0.length ≤ k + 1 := by omega
            exact le_trans e3 (Nat.le_add_right _ _)
          · show s1.length ≤ k + 1 + brk s1 (!(!sw))
            rw [Bool.not_not]
            have e1 := brk_le_one s1 (!sw)
            have e2 : s1.length ≤ k + brk s1 (!sw) := h4
            have e3 : s1.length ≤ k + 1 := by omega
            exact le_trans e3 (Nat.le_add_right _ _)
        · have hstep : splitStep (sw, s0, s1) c = (sw, s0, s1) := by
            simp only [splitStep, if_neg hb, if_neg hcc, if_neg hd, if_neg ha]
          rw [hstep]
          exact splitInv_mono ⟨h1, h2, h3, h4⟩ (by omega)

lemma splitAcc_inv_fold :
    ∀ (w : List Char) (st : Bool × List Char × List Char) (k : Nat),
      SplitInv k st → SplitInv (k + countA w) (w.foldl splitStep st) := by
  intro w
  induction w with
  | nil => intro st k h; simpa [countA] using h
  | cons c t ih =>
    intro st k h
    have hstep := splitStep_inv (c := c) h
    have hfold := ih (splitStep st c) _ hstep
    rw [List.foldl_cons]
    refine splitInv_mono hfold ?_
    have : countA (c :: t) = countA t + (if c = 'a' then 1 else 0) := by
      by_cases hca : c = 'a' <;> simp [countA, List.countP_cons, hca]
    omega

/-- Each side buffer of the Splitter grows by at most the number of
{b,c,d} symbols processed. -/
lemma splitAcc_len_bcd :
    ∀ (w : List Char) (st : Bool × List Char × List Char),
      (w.foldl splitStep st).2.1.length ≤ st.2.1.length + countBCD w ∧
        (w.foldl splitStep st).2.2.length ≤ st.2.2.length + countBCD w := by
  intro w
  induction w with
  | nil => intro st; simp [countBCD]
  | cons c t ih =>
    intro st
    obtain ⟨sw, s0, s1⟩ := st
    have hcnt : countBCD (c :: t) =
        countBCD t + (if c = 'b' ∨ c = 'c' ∨ c = 'd' then 1 else 0) := by
      by_cases h1 : c = 'b'
      · simp [countBCD, List.countP_cons, h1]
      · by_cases h2 : c = 'c'
        · simp [countBCD, List.countP_cons, h2]
        · by_cases h3 : c = 'd'
          · simp [countBCD, List.countP_cons, h3]
          · simp [countBCD, List.countP_cons, h1, h2, h3]
    have hstep1 : (splitStep (sw, s0, s1) c).2.1.length ≤
        s0.length + (if c = 'b' ∨ c = 'c' ∨ c = 'd' then 1 else 0) := by
      by_cases h1 : c = 'b'
      · subst h1
        show (addR s0 _).length ≤ s0.length + (if _ then 1 else 0)
        rw [if_pos (Or.inl rfl)]
        exact addR_length s0 _
      · by_cases h2 : c = 'c'
        · subst h2
          show (addR s0 _).length ≤ s0.length + (if _ then 1 else 0)
          rw [if_pos (Or.inr (Or.inl rfl))]
          exact addR_length s0 _
        · by_cases h3 : c = 'd'
          · subst h3
            rw [if_pos (Or.inr (Or.inr rfl))]
            cases sw with
            | false =>
              show (addR s0 'b').length ≤ s0.length + 1
              exact addR_length s0 _
            | true =>
              show s0.length ≤ s0.length + 1
              omega
          · by_cases h4 : c = 'a'
            · subst h4
              show s0.length ≤ s0.length + _
              omega
            · have hstep : splitStep (sw, s0, s1) c = (sw, s0, s1) := by
                simp only [splitStep, if_neg h1, if_neg h2, if_neg h3, if_neg h4]
              rw [hstep]
              show s0.length ≤ s0.length + _
              omega
    have hstep2 : (splitStep (sw, s0, s1) c).2.2.length ≤
        s1.length + (if c = 'b' ∨ c = 'c' ∨ c = 'd' then 1 else 0) := by
      by_cases h1 : c = 'b'
      · subst h1
        show (addR s1 _).length ≤ s1.length + (if _ then 1 else 0)
        rw [if_pos (Or.inl rfl)]
        exact addR_length s1 _
      · by_cases h2 : c = 'c'
        · subst h2
          show (addR s1 _).length ≤ s1.length + (if _ then 1 else 0)
          rw [if_pos (Or.inr (Or.inl rfl))]
          exact addR_length s1 _
        · by_cases h3 : c = 'd'
          · subst h3
            rw [if_pos (Or.inr (Or.inr rfl))]
            cases sw with
            | false =>
              show s1.length ≤ s1.length + 1
              omega
            | true =>
              show (addR s1 'b').length ≤ s1.length + 1
              exact addR_length s1 _
          · by_cases h4 : c = 'a'
            · subst h4
              show s1.length ≤ s1.length + _
              omega
            · have hstep : splitStep (sw, s0, s1) c = (sw, s0, s1) := by
                simp only [splitStep, if_neg h1, if_neg h2, if_neg h3, if_neg h4]
              rw [hstep]
              show s1.length ≤ s1.length + _
              omega
    obtain ⟨ih1, ih2⟩ := ih (splitStep (sw, s0, s1) c)
    rw [List.foldl_cons]
    constructor
    · show _ ≤ s0.length + countBCD (c :: t)
      refine le_trans ih1 ?_
      rw [hcnt]
      omega
    · show _ ≤ s1.length + countBCD (c :: t)
      refine le_trans ih2 ?_
      rw [hcnt]
      omega

/-- The two halves produced by `split` satisfy the alternation bound
(`countA + 1`) and the symbol-count bound (`countBCD`). -/
lemma split_child_lengths (w : List Char) :
    (split w).2.1.length ≤ countA w + 1 ∧ (split w).2.1.length ≤ countBCD w ∧
      (split w).2.2.length ≤ countA w + 1 ∧ (split w).2.2.length ≤ countBCD w := by
  have hinv := splitAcc_inv_fold w (false, [], []) 0
    ⟨by simp, by simp, by simp [brk], by simp [brk]⟩
  obtain ⟨_, _, hl0, hl1⟩ := hinv
  have hb0 := brk_le_one (splitAcc w).2.1 (splitAcc w).1
  have hb1 := brk_le_one (splitAcc w).2.2 (!(splitAcc w).1)
  obtain ⟨hbcd0, hbcd1⟩ := splitAcc_len_bcd w (false, [], [])
  have hEq : List.foldl splitStep (false, ([] : List Char), ([] : List Char)) w
      = splitAcc w := rfl
  rw [hEq] at hl0 hl1 hbcd0 hbcd1
  have hz0 : (splitAcc w).2.1.length ≤ 0 + countBCD w := hbcd0
  have hz1 : (splitAcc w).2.2.length ≤ 0 + countBCD w := hbcd1
  have e1 : (split w).2.1.length = (splitAcc w).2.1.length := by
    simp [split]
  have e2 : (split w).2.2.length = (splitAcc w).2.2.length := by
    simp [split]
  refine ⟨?_, ?_, ?_, ?_⟩
  · rw [e1]; omega
  · rw [e1]; omega
  · rw [e2]; omega
  · rw [e2]; omega

lemma countA_add_countBCD_le (w : List Char) :
    countA w + countBCD w ≤ w.length := by
  induction w with
  | nil => simp [countA, countBCD]
  | cons c t ih =>
    have hsum : (if (c == 'a') = true then 1 else 0) +
        (if (c == 'b' || c == 'c' || c == 'd') = true then 1 else 0) ≤ 1 := by
      by_cases h : c = 'a'
      · subst h; decide
      · have h2 : (c == 'a') = false := by
          simp [h]
        rw [h2]
        simp only [if_neg (by simp : ¬(false = true))]
        split <;> omega
    simp only [countA, countBCD, List.countP_cons, List.length_cons] at ih ⊢
    omega

/-- One-step unfolding of the decider. -/
lemma emptF_succ (fuel : Nat) (x : List Char) :
    emptF (fuel + 1) x =
      if x = [] then some true
      else if x = ['d'] then some false
      else if (split x).1 = true then some false
      else
        match emptF fuel (split x).2.1, emptF fuel (split x).2.2 with
        | some b0, some b1 => some (b0 && b1)
        | _, _ => none := rfl

/-- More fuel never changes the answer of the decider. -/
lemma emptF_mono :
    ∀ (f f' : Nat) (w : List Char) (b : Bool),
      emptF f w = some b → f ≤ f' → emptF f' w = some b := by
  intro f
  induction f with
  | zero => intro f' w b h _; simp [emptF] at h
  | succ f ih =>
    intro f' w b h hle
    obtain ⟨f2, rfl⟩ : ∃ f2, f' = f2 + 1 := ⟨f' - 1, by omega⟩
    have hle2 : f ≤ f2 := by omega
    simp only [emptF] at h ⊢
    by_cases h0 : w = []
    · rw [if_pos h0] at h ⊢; exact h
    · rw [if_neg h0] at h ⊢
      by_cases h1 : w = ['d']
      · rw [if_pos h1] at h ⊢; exact h
      · rw [if_neg h1] at h ⊢
        by_cases h2 : (split w).1 = true
        · rw [if_pos h2] at h ⊢; exact h
        · rw [if_neg h2] at h ⊢
          cases hc0 : emptF f (split w).2.1 with
          | none => rw [hc0] at h; simp at h
          | some b0 =>
            cases hc1 : emptF f (split w).2.2 with
            | none => rw [hc0, hc1] at h; simp at h
            | some b1 =>
              rw [hc0, hc1] at h
              rw [ih f2 _ b0 hc0 hle2, ih f2 _ b1 hc1 hle2]
              exact h

/-- A word containing none of a, b, c, d splits into `(false, "", "")`. -/
lemma splitAcc_single_other {c : Char}
    (h1 : c ≠ 'a') (h2 : c ≠ 'b') (h3 : c ≠ 'c') (h4 : c ≠ 'd') :
    splitAcc [c] = (false, [], []) := by
  show splitStep (false, [], []) c = (false, [], [])
  simp only [splitStep, if_neg h2, if_neg h3, if_neg h4, if_neg h1]

/-- C4 counterexample: deciding the single-symbol word "b" needs call depth 3
(`empt("b")` recurses into `empt("c")` which recurses into `empt("d")`), so
with fuel `|w| = 1` — and even `|w| + 1 = 2` — the recursion does not fit,
while fuel `|w| + 2 = 3` completes and answers `false`. -/
theorem empt_depth_counterexample :
    emptF (['b'].length) ['b'] = none ∧ emptF (['b'].length + 1) ['b'] = none ∧
      emptF (['b'].length + 2) ['b'] = some false := by
  decide

/-- C4 (amended). Termination of the Word-Problem Decider: for every word `w`
over any characters (in particular over {a,b,c,d}), `empt(w)` terminates and
its recursion depth is bounded by the length of `w` plus 2: running the
decider with fuel `|w| + 2` always returns an answer. (The bound `|w|`
claimed by the spec fails on the word "b", see the counterexample; each
recursive call operates on halves of length at most `min(countA(w)+1,
countBCD(w))`, which is at most `|w| - 1` once `|w| ≥ 2`.) -/
theorem empt_terminates (w : List Char) : (emptF (w.length + 2) w).isSome = true := by
  suffices H : ∀ (n : Nat) (w : List Char), w.length ≤ n →
      (emptF (w.length + 2) w).isSome = true by
    exact H w.length w le_rfl
  intro n
  induction n with
  | zero =>
    intro w hw
    have hnil : w = [] := List.length_eq_zero.mp (Nat.le_zero.mp hw)
    subst hnil
    rfl
  | succ n ih =>
    intro w hw
    by_cases hsh : w.length ≤ n
    · exact ih w hsh
    · have hlen : w.length = n + 1 := by omega
      cases w with
      | nil => rfl
      | cons c t =>
        cases t with
        | nil =>
          by_cases ha : c = 'a'
          · subst ha; decide
          · by_cases hb : c = 'b'
            · subst hb; decide
            · by_cases hcc : c = 'c'
              · subst hcc; decide
              · by_cases hd : c = 'd'
                · subst hd; decide
                · have hsp : splitAcc [c] = (false, [], []) :=
                    splitAcc_single_other ha hb hcc hd
                  have hsplit : split [c] = (false, [], []) := by
                    rw [split, hsp]
                    rfl
                  show (emptF (2 + 1) [c]).isSome = true
                  rw [emptF_succ, hsplit]
                  rw [if_neg (by simp : ¬([c] = [])),
                    if_neg (by simp [hd] : ¬([c] = ['d'])),
                    if_neg (by simp : ¬((false, ([] : List Char), ([] : List Char)).1 = true))]
                  rfl
        | cons c2 t2 =>
          obtain ⟨hA1, hB1, hA2, hB2⟩ := split_child_lengths (c :: c2 :: t2)
          have hcnt := countA_add_countBCD_le (c :: c2 :: t2)
          have hlenw : (c :: c2 :: t2).length = t2.length + 2 := by simp
          have hchild1 : (split (c :: c2 :: t2)).2.1.length ≤ n := by omega
          have hchild2 : (split (c :: c2 :: t2)).2.2.length ≤ n := by omega
          have hne : (c :: c2 :: t2) ≠ ['d'] := by
            intro he
            have := congrArg List.length he
            simp at this
          show (emptF ((c :: c2 :: t2).length + 1 + 1) (c :: c2 :: t2)).isSome = true
          rw [emptF_succ]
          rw [if_neg (by simp : ¬(c :: c2 :: t2 = [])), if_neg hne]
          by_cases hsw : (split (c :: c2 :: t2)).1 = true
          · rw [if_pos hsw]; rfl
          · rw [if_neg hsw]
            obtain ⟨b0, hb0⟩ := Option.isSome_iff_exists.mp (ih _ hchild1)
            obtain ⟨b1, hb1⟩ := Option.isSome_iff_exists.mp (ih _ hchild2)
            have hm0 : emptF ((c :: c2 :: t2).length + 1) (split (c :: c2 :: t2)).2.1
                = some b0 := emptF_mono _ _ _ _ hb0 (by omega)
            have hm1 : emptF ((c :: c2 :: t2).length + 1) (split (c :: c2 :: t2)).2.2
                = some b1 := emptF_mono _ _ _ _ hb1 (by omega)
            rw [hm0, hm1]
            rfl

/-! ## The Canonical Form Store

`struct rep` of grigorchuk.cpp, in an arena addressed by `Nat` handles
(the C++ code addresses representatives by pointer; hash-consing makes a
pointer interchangeable with its arena index). Handles 0..4 are the five
static representatives `grig_I`, `grig_a`, `grig_b`, `grig_c`, `grig_d`;
the entries from index 5 on are the `all_reps` map, append-only. -/

structure RepNode where
  swapped : Bool
  a0 : Nat
  a1 : Nat
  last : Char
  visited : Bool
  len : Int
deriving DecidableEq

/-- The structural identity of a representative, `tie(swapped, a0, a1)`:
the fields compared by `operator ==` on `rep` (and ordered by `operator <`,
which keys the `all_reps` map). `last`, `visited` and `len` are mutable
scratch data, not part of the identity. -/
def tripleOf (n : RepNode) : Bool × Nat × Nat :=
  (n.swapped, n.a0, n.a1)

abbrev Store := List RepNode

/-- `rep grig_I = rep{false, &grig_I, &grig_I, 0, false}` (handle 0). -/
def grig_I : RepNode := ⟨false, 0, 0, Char.ofNat 0, false, -1⟩

/-- `rep grig_a = rep{true, &grig_I, &grig_I, 'a', false}` (handle 1). -/
def grig_a : RepNode := ⟨true, 0, 0, 'a', false, -1⟩

/-- `rep grig_b = rep{false, &grig_a, &grig_c, 'b', false}` (handle 2). -/
def grig_b : RepNode := ⟨false, 1, 3, 'b', false, -1⟩

/-- `rep grig_c = rep{false, &grig_a, &grig_d, 'c', false}` (handle 3). -/
def grig_c : RepNode := ⟨false, 1, 4, 'c', false, -1⟩

/-- `rep grig_d = rep{false, &grig_I, &grig_b, 'd', false}` (handle 4). -/
def grig_d : RepNode := ⟨false, 0, 2, 'd', false, -1⟩

/-- The store at static-initialization time: the five fixed representatives
and an empty `all_reps` map. -/
def initStore : Store := [grig_I, grig_a, grig_b, grig_c, grig_d]

/-- Index of the first entry whose structural triple equals the candidate's
(the five fixed representatives sit at indices 0..4 and are checked first,
exactly like the chain of `==` tests in `lookup`; the tail is `all_reps`). -/
def findTriple (x : RepNode) : List RepNode → Option Nat
  | [] => none
  | n :: t =>
    if tripleOf n = tripleOf x then some 0
    else (findTriple x t).map (fun i => i + 1)

/-- `prep lookup(rep x)`: return the handle of the representative with `x`'s
triple if it exists (a fixed one, or an entry of `all_reps`), else append `x`
as a fresh representative and return its handle. -/
def lookup (st : Store) (x : RepNode) : Store × Nat :=
  match findTriple x st with
  | some i => (st, i)
  | none => (st ++ [x], st.length)

/-- No two entries of the store share a structural triple (the `all_reps` map
has unique keys, the five fixed representatives have pairwise distinct
triples, and `lookup` checks the fixed ones before inserting). -/
def DistinctTriples (st : Store) : Prop :=
  (st.map tripleOf).Nodup

/-- The store invariant: triples are pairwise distinct and the five fixed
representatives (by triple) sit at handles 0..4. -/
def WF (st : Store) : Prop :=
  DistinctTriples st ∧ (st.take 5).map tripleOf = initStore.map tripleOf

instance (st : Store) : Decidable (DistinctTriples st) := by
  unfold DistinctTriples; infer_instance

instance (st : Store) : Decidable (WF st) := by
  unfold WF; infer_instance

/-- The constant-time fast paths of `prep mul(prep x, prep y)`: the chain of
pointer comparisons against the five fixed representatives at the top of
`mul` (identity absorption, the four involutions, and the six Klein-four
products), as a partial function of the two handles. `none` means none of the
twelve `if` tests fired. -/
def fastMul (x y : Nat) : Option Nat :=
  if x = 0 then some y
  else if y = 0 then some x
  else if x = 1 ∧ y = 1 then some 0
  else if x = 2 ∧ y = 2 then some 0
  else if x = 3 ∧ y = 3 then some 0
  else if x = 4 ∧ y = 4 then some 0
  else if x = 2 ∧ y = 3 then some 4
  else if x = 3 ∧ y = 2 then some 4
  else if x = 2 ∧ y = 4 then some 3
  else if x = 4 ∧ y = 2 then some 3
  else if x = 3 ∧ y = 4 then some 2
  else if x = 4 ∧ y = 3 then some 2
  else none

/-- `prep mul(prep x, prep y)` with explicit fuel: the fast paths compare
handles (pointers) against the five fixed representatives; the general case
recurses into the children and interns the resulting triple, tagged with
`y`'s `last` symbol. -/
def mulF : Nat → Store → Nat → Nat → Option (Store × Nat)
  | 0, _, _, _ => none
  | fuel + 1, st, x, y =>
    match fastMul x y with
    | some r => some (st, r)
    | none =>
      (st.get? x).bind fun nx =>
        (st.get? y).bind fun ny =>
          if ny.swapped = false then
            (mulF fuel st nx.a0 ny.a0).bind fun p =>
              (mulF fuel p.1 nx.a1 ny.a1).bind fun q =>
                some (lookup q.1 ⟨nx.swapped, p.2, q.2, ny.last, false, -1⟩)
          else
            (mulF fuel st nx.a1 ny.a0).bind fun p =>
              (mulF fuel p.1 nx.a0 ny.a1).bind fun q =>
                some (lookup q.1 ⟨!nx.swapped, p.2, q.2, ny.last, false, -1⟩)

/-! ## Lemmas about the Canonical Form Store -/

lemma findTriple_some :
    ∀ (st : List RepNode) (x : RepNode) (i : Nat),
      findTriple x st = some i →
      ∃ n, st.get? i = some n ∧ tripleOf n = tripleOf x := by
  intro st
  induction st with
  | nil => intro x i h; exact Option.noConfusion h
  | cons n t ih =>
    intro x i h
    by_cases he : tripleOf n = tripleOf x
    · rw [findTriple, if_pos he] at h
      cases h
      exact ⟨n, rfl, he⟩
    · rw [findTriple, if_neg he] at h
      cases hft : findTriple x t with
      | none => rw [hft] at h; simp at h
      | some j =>
        rw [hft] at h
        rw [Option.map_some'] at h
        cases h
        obtain ⟨m, hm, hmt⟩ := ih x j hft
        exact ⟨m, by simpa using hm, hmt⟩

lemma findTriple_none :
    ∀ (st : List RepNode) (x : RepNode),
      findTriple x st = none → ∀ n ∈ st, tripleOf n ≠ tripleOf x := by
  intro st x
  induction st with
  | nil => intro _ n hn; simp at hn
  | cons m t ih =>
    intro h n hn
    by_cases he : tripleOf m = tripleOf x
    · rw [findTriple, if_pos he] at h; simp at h
    · rw [findTriple, if_neg he] at h
      rcases List.mem_cons.mp hn with rfl | hn
      · exact he
      · cases hft : findTriple x t with
        | none => exact ih hft n hn
        | some j => rw [hft] at h; simp at h

lemma findTriple_of_get? :
    ∀ (st : List RepNode) (x : RepNode) (i : Nat) (n : RepNode),
      DistinctTriples st → st.get? i = some n → tripleOf n = tripleOf x →
      findTriple x st = some i := by
  intro st
  induction st with
  | nil => intro x i n _ h _; simp at h
  | cons m t ih =>
    intro x i n hDT hget htr
    have hDT2 : (tripleOf m ∉ t.map tripleOf) ∧ DistinctTriples t := by
      have := hDT
      rw [DistinctTriples, List.map_cons, List.nodup_cons] at this
      exact this
    cases i with
    | zero =>
      have hm : m = n := by simpa using hget
      subst hm
      rw [findTriple, if_pos htr]
    | succ j =>
      have hget2 : t.get? j = some n := by simpa using hget
      have hne : tripleOf m ≠ tripleOf x := by
        intro he
        have hmem : n ∈ t := List.get?_mem hget2
        have hmap : tripleOf n ∈ t.map tripleOf := List.mem_map_of_mem _ hmem
        rw [htr, ← he] at hmap
        exact hDT2.1 hmap
      rw [findTriple, if_neg hne, ih x j n hDT2.2 hget2 htr]
      rfl

/-- The node returned by `lookup` carries the candidate's triple. -/
lemma lookup_get (st : Store) (x : RepNode) :
    ∃ n, (lookup st x).1.get? (lookup st x).2 = some n ∧ tripleOf n = tripleOf x := by
  rw [lookup]
  cases hft : findTriple x st with
  | some i =>
    obtain ⟨n, hn, ht⟩ := findTriple_some st x i hft
    exact ⟨n, hn, ht⟩
  | none =>
    refine ⟨x, ?_, rfl⟩
    rw [List.get?_append_right (le_refl st.length)]
    simp

/-- `lookup` only ever appends to the store. -/
lemma lookup_ext (st : Store) (x : RepNode) :
    ∃ t, (lookup st x).1 = st ++ t := by
  rw [lookup]
  cases hft : findTriple x st with
  | some i => exact ⟨[], by simp⟩
  | none => exact ⟨[x], rfl⟩

lemma lookup_DT (st : Store) (x : RepNode) (h : DistinctTriples st) :
    DistinctTriples (lookup st x).1 := by
  rw [lookup]
  cases hft : findTriple x st with
  | some i => exact h
  | none =>
    have hnot := findTriple_none st x hft
    rw [DistinctTriples, List.map_append, List.nodup_append]
    refine ⟨h, by simp, ?_⟩
    intro p hp hq
    simp only [List.map_cons, List.map_nil, List.mem_singleton] at hq
    obtain ⟨n, hn, rfl⟩ := List.mem_map.mp hp
    exact hnot n hn hq

lemma WF_length (st : Store) (h : WF st) : 5 ≤ st.length := by
  have h5 : min 5 st.length = 5 := by
    have h6 := congrArg List.length h.2
    rw [List.length_map, List.length_take, List.length_map] at h6
    exact h6.trans rfl
  omega

lemma lookup_WF (st : Store) (x : RepNode) (h : WF st) :
    WF (lookup st x).1 := by
  have hDT := lookup_DT st x h.1
  obtain ⟨t, ht⟩ := lookup_ext st x
  refine ⟨hDT, ?_⟩
  rw [ht, List.take_append_of_le_length (WF_length st h)]
  exact h.2

/-- In a store with distinct triples, a candidate whose triple is already
present at handle `i` resolves to exactly that handle, without any growth. -/
lemma lookup_found (st : Store) (x : RepNode) (i : Nat) (n : RepNode)
    (hDT : DistinctTriples st) (hget : st.get? i = some n)
    (htr : tripleOf n = tripleOf x) :
    lookup st x = (st, i) := by
  rw [lookup, findTriple_of_get? st x i n hDT hget htr]

/-- In a well-formed store, handle `k < 5` holds a node carrying the `k`-th
fixed representative's triple. -/
lemma WF_fixed (st : Store) (h : WF st) (k : Nat) (hk : k < 5) (m : RepNode)
    (hm : initStore.get? k = some m) :
    ∃ n, st.get? k = some n ∧ tripleOf n = tripleOf m := by
  have h6 := congrArg (fun l => l.get? k) h.2
  simp only [List.get?_map] at h6
  rw [List.get?_take hk, hm] at h6
  cases hg : st.get? k with
  | none => rw [hg] at h6; exact absurd h6 (by simp)
  | some n => rw [hg] at h6; exact ⟨n, rfl, by simpa using h6⟩

/-- A candidate whose triple equals a fixed representative's resolves to the
fixed handle, with no store growth. -/
lemma lookup_fixed (st : Store) (x : RepNode) (h : WF st) (k : Nat) (hk : k < 5)
    (m : RepNode) (hm : initStore.get? k = some m)
    (htr : tripleOf x = tripleOf m) :
    lookup st x = (st, k) := by
  obtain ⟨n, hn, ht⟩ := WF_fixed st h k hk m hm
  exact lookup_found st x k n h.1 hn (ht.trans htr.symm)

/-- C1. Hash-consing invariant of the Canonical Form Store: two successive
`lookup` calls return the same handle exactly when the candidate triples are
equal; a candidate whose triple is already interned returns the previously
created object with no growth; and a candidate whose triple equals one of the
five fixed representatives I, a, b, c, d returns that static object. After
`lookup`, equality of handles (pointer equality) is equivalent to equality of
triples. -/
theorem lookup_hash_consing
    (st : Store) (x y : RepNode) (hwf : WF st)
    (st1 : Store) (i : Nat) (h1 : lookup st x = (st1, i))
    (st2 : Store) (j : Nat) (h2 : lookup st1 y = (st2, j)) :
    (i = j ↔ tripleOf x = tripleOf y) ∧
      (tripleOf x = tripleOf y → st2 = st1 ∧ j = i) ∧
      (tripleOf x = tripleOf grig_I → (st1, i) = (st, 0)) ∧
      (tripleOf x = tripleOf grig_a → (st1, i) = (st, 1)) ∧
      (tripleOf x = tripleOf grig_b → (st1, i) = (st, 2)) ∧
      (tripleOf x = tripleOf grig_c → (st1, i) = (st, 3)) ∧
      (tripleOf x = tripleOf grig_d → (st1, i) = (st, 4)) := by
  have hwf1 : WF st1 := by
    have h3 := lookup_WF st x hwf
    rw [h1] at h3
    exact h3
  have hga := lookup_get st x
  rw [h1] at hga
  obtain ⟨nx, hnx0, hnxt⟩ := hga
  have hnx : st1.get? i = some nx := hnx0
  have hilt : i < st1.length := by
    by_contra hcon
    rw [List.get?_eq_none.mpr (Nat.le_of_not_lt hcon)] at hnx
    exact Option.noConfusion hnx
  have hgb := lookup_get st1 y
  rw [h2] at hgb
  obtain ⟨ny, hny0, hnyt⟩ := hgb
  have hny : st2.get? j = some ny := hny0
  have hext2 := lookup_ext st1 y
  rw [h2] at hext2
  obtain ⟨t2, ht20⟩ := hext2
  have ht2 : st2 = st1 ++ t2 := ht20
  have hback : tripleOf x = tripleOf y → lookup st1 y = (st1, i) := fun htr =>
    lookup_found st1 y i nx hwf1.1 hnx (hnxt.trans htr)
  have hsame : tripleOf x = tripleOf y → st2 = st1 ∧ j = i := by
    intro htr
    have h4 := h2.symm.trans (hback htr)
    exact ⟨congrArg Prod.fst h4, congrArg Prod.snd h4⟩
  refine ⟨⟨?_, fun htr => (hsame htr).2.symm⟩, hsame, ?_, ?_, ?_, ?_, ?_⟩
  · intro hij
    subst hij
    have h5 : st2.get? i = st1.get? i := by
      rw [ht2, List.get?_append hilt]
    rw [h5, hnx] at hny
    cases hny
    exact hnxt.symm.trans hnyt
  · intro htr
    exact h1.symm.trans (lookup_fixed st x hwf 0 (by omega) grig_I rfl htr)
  · intro htr
    exact h1.symm.trans (lookup_fixed st x hwf 1 (by omega) grig_a rfl htr)
  · intro htr
    exact h1.symm.trans (lookup_fixed st x hwf 2 (by omega) grig_b rfl htr)
  · intro htr
    exact h1.symm.trans (lookup_fixed st x hwf 3 (by omega) grig_c rfl htr)
  · intro htr
    exact h1.symm.trans (lookup_fixed st x hwf 4 (by omega) grig_d rfl htr)

/-- C1 witness: interning the triple `(true, b, b)` twice yields the same
fresh handle 5 both times, and the iff of the hash-consing theorem holds. -/
theorem lookup_hash_consing_witness :
    WF initStore ∧
      lookup initStore ⟨true, 2, 2, 'z', false, -1⟩ =
        (initStore ++ [⟨true, 2, 2, 'z', false, -1⟩], 5) ∧
      (5 = 5 ↔ tripleOf (⟨true, 2, 2, 'z', false, -1⟩ : RepNode) =
          tripleOf (⟨true, 2, 2, 'z', false, -1⟩ : RepNode)) :=
  ⟨by decide, by decide,
    (lookup_hash_consing initStore ⟨true, 2, 2, 'z', false, -1⟩
      ⟨true, 2, 2, 'z', false, -1⟩ (by decide)
      (initStore ++ [⟨true, 2, 2, 'z', false, -1⟩]) 5 (by decide)
      (initStore ++ [⟨true, 2, 2, 'z', false, -1⟩]) 5 (by decide)).1⟩

/-! ## The Multiplier: store extension, frame property, swap parity -/

/-- One-step unfolding of the multiplier. -/
lemma mulF_succ (fuel : Nat) (st : Store) (x y : Nat) :
    mulF (fuel + 1) st x y =
      (match fastMul x y with
      | some r => some (st, r)
      | none =>
        (st.get? x).bind fun nx =>
          (st.get? y).bind fun ny =>
            if ny.swapped = false then
              (mulF fuel st nx.a0 ny.a0).bind fun p =>
                (mulF fuel p.1 nx.a1 ny.a1).bind fun q =>
                  some (lookup q.1 ⟨nx.swapped, p.2, q.2, ny.last, false, -1⟩)
            else
              (mulF fuel st nx.a1 ny.a0).bind fun p =>
                (mulF fuel p.1 nx.a0 ny.a1).bind fun q =>
                  some (lookup q.1 ⟨!nx.swapped, p.2, q.2, ny.last, false, -1⟩)) := rfl

/-- `StoreExt st st'`: the store `st'` extends `st` by appending entries
(the Canonical Form Store is append-only, entries are never modified). -/
def StoreExt (st st' : Store) : Prop := ∃ t, st' = st ++ t

lemma storeExt_refl (st : Store) : StoreExt st st := ⟨[], by simp⟩

lemma storeExt_trans {s1 s2 s3 : Store} (h1 : StoreExt s1 s2) (h2 : StoreExt s2 s3) :
    StoreExt s1 s3 := by
  obtain ⟨t1, rfl⟩ := h1
  obtain ⟨t2, rfl⟩ := h2
  exact ⟨t1 ++ t2, by simp⟩

lemma storeExt_length {s1 s2 : Store} (h : StoreExt s1 s2) : s1.length ≤ s2.length := by
  obtain ⟨t, rfl⟩ := h
  simp

lemma storeExt_get? {s1 s2 : Store} (h : StoreExt s1 s2) {k : Nat} (hk : k < s1.length) :
    s2.get? k = s1.get? k := by
  obtain ⟨t, rfl⟩ := h
  exact List.get?_append hk

lemma some_pair_eq {st st' : Store} {a r : Nat}
    (h : (some (st, a) : Option (Store × Nat)) = some (st', r)) :
    st' = st ∧ r = a := by
  injection h with h2
  exact ⟨(congrArg Prod.fst h2).symm, (congrArg Prod.snd h2).symm⟩

/-- A successful multiplication only appends to the store (frame property),
and preserves distinctness of triples. -/
lemma mulF_ext_DT :
    ∀ (f : Nat) (st : Store) (x y : Nat) (st' : Store) (r : Nat),
      mulF f st x y = some (st', r) →
      StoreExt st st' ∧ (DistinctTriples st → DistinctTriples st') := by
  intro f
  induction f with
  | zero => intro st x y st' r hm; exact Option.noConfusion hm
  | succ f ih =>
    intro st x y st' r hm
    rw [mulF_succ] at hm
    cases hfp : fastMul x y with
    | some k =>
      rw [hfp] at hm
      obtain ⟨rfl, rfl⟩ := some_pair_eq hm
      exact ⟨storeExt_refl _, fun hD => hD⟩
    | none =>
      rw [hfp] at hm
      obtain ⟨nx, hgx, hm⟩ := Option.bind_eq_some.mp hm
      obtain ⟨ny, hgy, hm⟩ := Option.bind_eq_some.mp hm
      by_cases hsw : ny.swapped = false
      · rw [if_pos hsw] at hm
        obtain ⟨p, hp, hm⟩ := Option.bind_eq_some.mp hm
        obtain ⟨q, hq, hm⟩ := Option.bind_eq_some.mp hm
        have hlk : lookup q.1 ⟨nx.swapped, p.2, q.2, ny.last, false, -1⟩ = (st', r) :=
          Option.some.inj hm
        obtain ⟨e1, e2⟩ := ih st nx.a0 ny.a0 p.1 p.2 hp
        obtain ⟨e3, e4⟩ := ih p.1 nx.a1 ny.a1 q.1 q.2 hq
        have e5 : StoreExt q.1 st' := by
          obtain ⟨t, ht⟩ := lookup_ext q.1 ⟨nx.swapped, p.2, q.2, ny.last, false, -1⟩
          rw [hlk] at ht
          exact ⟨t, ht⟩
        refine ⟨storeExt_trans e1 (storeExt_trans e3 e5), fun hD => ?_⟩
        have hD2 := lookup_DT q.1 ⟨nx.swapped, p.2, q.2, ny.last, false, -1⟩ (e4 (e2 hD))
        rw [hlk] at hD2
        exact hD2
      · rw [if_neg hsw] at hm
        obtain ⟨p, hp, hm⟩ := Option.bind_eq_some.mp hm
        obtain ⟨q, hq, hm⟩ := Option.bind_eq_some.mp hm
        have hlk : lookup q.1 ⟨!nx.swapped, p.2, q.2, ny.last, false, -1⟩ = (st', r) :=
          Option.some.inj hm
        obtain ⟨e1, e2⟩ := ih st nx.a1 ny.a0 p.1 p.2 hp
        obtain ⟨e3, e4⟩ := ih p.1 nx.a0 ny.a1 q.1 q.2 hq
        have e5 : StoreExt q.1 st' := by
          obtain ⟨t, ht⟩ := lookup_ext q.1 ⟨!nx.swapped, p.2, q.2, ny.last, false, -1⟩
          rw [hlk] at ht
          exact ⟨t, ht⟩
        refine ⟨storeExt_trans e1 (storeExt_trans e3 e5), fun hD => ?_⟩
        have hD2 := lookup_DT q.1 ⟨!nx.swapped, p.2, q.2, ny.last, false, -1⟩ (e4 (e2 hD))
        rw [hlk] at hD2
        exact hD2

/-- C3 counterexample: `mul(b, c)` takes the Klein-four fast path and returns
the static representative `d`, whose `lastSymbol` stays 'd' — it is not
overwritten with `y`'s label 'c'. -/
theorem mul_lastSymbol_counterexample :
    mulF 1 initStore 2 3 = some (initStore, 4) ∧
      (initStore.get? 4).map RepNode.last = some 'd' ∧
      (initStore.get? 3).map RepNode.last = some 'c' ∧
      (initStore.get? 4).map RepNode.last ≠ (initStore.get? 3).map RepNode.last := by
  decide

/-- C3 (amended). Multiplier lastSymbol frame property: `mul` never mutates
any field — in particular `lastSymbol` — of a representative that already
exists in the store; it only appends fresh nodes (a fresh node allocated by
the general case carries `y`'s label, while fast-path results and
already-interned results keep whatever `lastSymbol` they had before the
call). -/
theorem mul_frame (f : Nat) (st : Store) (x y : Nat) (st' : Store) (r : Nat)
    (hm : mulF f st x y = some (st', r)) (k : Nat) (hk : k < st.length) :
    st'.get? k = st.get? k :=
  storeExt_get? (mulF_ext_DT f st x y st' r hm).1 hk

/-- C3 witness: multiplying `a * c` interns a fresh node at handle 5 and the
five static entries are untouched. -/
theorem mul_frame_witness :
    mulF 9 initStore 1 3 = some (initStore ++ [(⟨true, 1, 4, 'c', false, -1⟩ : RepNode)], 5) ∧
      2 < initStore.length ∧
      (initStore ++ [(⟨true, 1, 4, 'c', false, -1⟩ : RepNode)]).get? 2 = initStore.get? 2 :=
  ⟨by decide, by decide,
    mul_frame 9 initStore 1 3 (initStore ++ [(⟨true, 1, 4, 'c', false, -1⟩ : RepNode)]) 5
      (by decide) 2 (by decide)⟩

/-- Exhaustive description of the twelve fast paths of `mul`. -/
lemma fastMul_spec (x y r : Nat) (h : fastMul x y = some r) :
    (x = 0 ∧ r = y) ∨ (y = 0 ∧ r = x) ∨
      ((x = 1 ∨ x = 2 ∨ x = 3 ∨ x = 4) ∧ y = x ∧ r = 0) ∨
      (((x = 2 ∧ y = 3) ∨ (x = 3 ∧ y = 2)) ∧ r = 4) ∨
      (((x = 2 ∧ y = 4) ∨ (x = 4 ∧ y = 2)) ∧ r = 3) ∨
      (((x = 3 ∧ y = 4) ∨ (x = 4 ∧ y = 3)) ∧ r = 2) := by
  unfold fastMul at h
  by_cases c1 : x = 0
  case pos =>
    rw [if_pos c1] at h
    have hr := Option.some.inj h
    exact Or.inl ⟨c1, hr.symm⟩
  case neg =>
    rw [if_neg c1] at h
    by_cases c2 : y = 0
    case pos =>
      rw [if_pos c2] at h
      have hr := Option.some.inj h
      exact Or.inr (Or.inl ⟨c2, hr.symm⟩)
    case neg =>
      rw [if_neg c2] at h
      by_cases c3 : x = 1 ∧ y = 1
      case pos =>
        rw [if_pos c3] at h
        have hr := Option.some.inj h
        exact Or.inr (Or.inr (Or.inl ⟨Or.inl c3.1, c3.2.trans c3.1.symm, hr.symm⟩))
      case neg =>
        rw [if_neg c3] at h
        by_cases c4 : x = 2 ∧ y = 2
        case pos =>
          rw [if_pos c4] at h
          have hr := Option.some.inj h
          exact Or.inr (Or.inr (Or.inl ⟨Or.inr (Or.inl c4.1), c4.2.trans c4.1.symm, hr.symm⟩))
        case neg =>
          rw [if_neg c4] at h
          by_cases c5 : x = 3 ∧ y = 3
          case pos =>
            rw [if_pos c5] at h
            have hr := Option.some.inj h
            exact Or.inr (Or.inr (Or.inl ⟨Or.inr (Or.inr (Or.inl c5.1)), c5.2.trans c5.1.symm, hr.symm⟩))
          case neg =>
            rw [if_neg c5] at h
            by_cases c6 : x = 4 ∧ y = 4
            case pos =>
              rw [if_pos c6] at h
              have hr := Option.some.inj h
              exact Or.inr (Or.inr (Or.inl ⟨Or.inr (Or.inr (Or.inr c6.1)), c6.2.trans c6.1.symm, hr.symm⟩))
            case neg =>
              rw [if_neg c6] at h
              by_cases c7 : x = 2 ∧ y = 3
              case pos =>
                rw [if_pos c7] at h
                have hr := Option.some.inj h
                exact Or.inr (Or.inr (Or.inr (Or.inl ⟨Or.inl c7, hr.symm⟩)))
              case neg =>
                rw [if_neg c7] at h
                by_cases c8 : x = 3 ∧ y = 2
                case pos =>
                  rw [if_pos c8] at h
                  have hr := Option.some.inj h
                  exact Or.inr (Or.inr (Or.inr (Or.inl ⟨Or.inr c8, hr.symm⟩)))
                case neg =>
                  rw [if_neg c8] at h
                  by_cases c9 : x = 2 ∧ y = 4
                  case pos =>
                    rw [if_pos c9] at h
                    have hr := Option.some.inj h
                    exact Or.inr (Or.inr (Or.inr (Or.inr (Or.inl ⟨Or.inl c9, hr.symm⟩))))
                  case neg =>
                    rw [if_neg c9] at h
                    by_cases c10 : x = 4 ∧ y = 2
                    case pos =>
                      rw [if_pos c10] at h
                      have hr := Option.some.inj h
                      exact Or.inr (Or.inr (Or.inr (Or.inr (Or.inl ⟨Or.inr c10, hr.symm⟩))))
                    case neg =>
                      rw [if_neg c10] at h
                      by_cases c11 : x = 3 ∧ y = 4
                      case pos =>
                        rw [if_pos c11] at h
                        have hr := Option.some.inj h
                        exact Or.inr (Or.inr (Or.inr (Or.inr (Or.inr ⟨Or.inl c11, hr.symm⟩))))
                      case neg =>
                        rw [if_neg c11] at h
                        by_cases c12 : x = 4 ∧ y = 3
                        case pos =>
                          rw [if_pos c12] at h
                          have hr := Option.some.inj h
                          exact Or.inr (Or.inr (Or.inr (Or.inr (Or.inr ⟨Or.inr c12, hr.symm⟩))))
                        case neg =>
                          rw [if_neg c12] at h
                          exact Option.noConfusion h

/-- In a well-formed store, the node at a fixed handle has the fixed
representative's swap flag. -/
lemma swapped_at (st : Store) (hwf : WF st) (k : Nat) (hk : k < 5) (m : RepNode)
    (hm : initStore.get? k = some m) (n : RepNode) (hn : st.get? k = some n) :
    n.swapped = m.swapped := by
  obtain ⟨n2, hn2, ht⟩ := WF_fixed st hwf k hk m hm
  rw [hn] at hn2
  injection hn2 with h3
  subst h3
  exact congrArg Prod.fst ht

/-- C10. Swap-parity homomorphism: for every pair of representatives, the
`swapped` flag of the representative returned by `mul(x, y)` is the
exclusive-or of `x`'s and `y`'s `swapped` flags — on all twelve fast paths
(where the flags involved are the fixed representatives') and in the general
case (where the result triple's flag is `x.swapped` or `!x.swapped` according
to `y.swapped`). -/
theorem mul_swap_parity (f : Nat) (st : Store) (x y : Nat) (hwf : WF st)
    (nx ny : RepNode) (hgx : st.get? x = some nx) (hgy : st.get? y = some ny)
    (st' : Store) (r : Nat) (hm : mulF f st x y = some (st', r))
    (nr : RepNode) (hgr : st'.get? r = some nr) :
    nr.swapped = Bool.xor nx.swapped ny.swapped := by
  cases f with
  | zero => exact Option.noConfusion hm
  | succ f =>
    rw [mulF_succ] at hm
    cases hfp : fastMul x y with
    | some k =>
      rw [hfp] at hm
      obtain ⟨he1, he2⟩ := some_pair_eq hm
      rw [he1, he2] at hgr
      rcases fastMul_spec x y k hfp with ⟨hx0, hky⟩ | ⟨hy0, hkx⟩ |
        ⟨_, hyx, hk0⟩ | ⟨hxy, hk4⟩ | ⟨hxy, hk3⟩ | ⟨hxy, hk2⟩
      · subst hx0; subst hky
        rw [hgy] at hgr
        injection hgr with hnr
        subst hnr
        have e1 : nx.swapped = false := swapped_at st hwf 0 (by omega) grig_I rfl nx hgx
        rw [e1]
        cases ny.swapped <;> rfl
      · subst hy0; subst hkx
        rw [hgx] at hgr
        injection hgr with hnr
        subst hnr
        have e1 : ny.swapped = false := swapped_at st hwf 0 (by omega) grig_I rfl ny hgy
        rw [e1]
        cases nx.swapped <;> rfl
      · subst hyx; subst hk0
        rw [hgx] at hgy
        injection hgy with hny
        subst hny
        have e1 : nr.swapped = false := swapped_at st hwf 0 (by omega) grig_I rfl nr hgr
        rw [e1]
        cases nx.swapped <;> rfl
      · subst hk4
        have er : nr.swapped = false := swapped_at st hwf 4 (by omega) grig_d rfl nr hgr
        rcases hxy with ⟨hx, hy⟩ | ⟨hx, hy⟩
        · subst hx; subst hy
          have e1 : nx.swapped = false := swapped_at st hwf 2 (by omega) grig_b rfl nx hgx
          have e2 : ny.swapped = false := swapped_at st hwf 3 (by omega) grig_c rfl ny hgy
          rw [er, e1, e2]
          rfl
        · subst hx; subst hy
          have e1 : nx.swapped = false := swapped_at st hwf 3 (by omega) grig_c rfl nx hgx
          have e2 : ny.swapped = false := swapped_at st hwf 2 (by omega) grig_b rfl ny hgy
          rw [er, e1, e2]
          rfl
      · subst hk3
        have er : nr.swapped = false := swapped_at st hwf 3 (by omega) grig_c rfl nr hgr
        rcases hxy with ⟨hx, hy⟩ | ⟨hx, hy⟩
        · subst hx; subst hy
          have e1 : nx.swapped = false := swapped_at st hwf 2 (by omega) grig_b rfl nx hgx
          have e2 : ny.swapped = false := swapped_at st hwf 4 (by omega) grig_d rfl ny hgy
          rw [er, e1, e2]
          rfl
        · subst hx; subst hy
          have e1 : nx.swapped = false := swapped_at st hwf 4 (by omega) grig_d rfl nx hgx
          have e2 : ny.swapped = false := swapped_at st hwf 2 (by omega) grig_b rfl ny hgy
          rw [er, e1, e2]
          rfl
      · subst hk2
        have er : nr.swapped = false := swapped_at st hwf 2 (by omega) grig_b rfl nr hgr
        rcases hxy with ⟨hx, hy⟩ | ⟨hx, hy⟩
        · subst hx; subst hy
          have e1 : nx.swapped = false := swapped_at st hwf 3 (by omega) grig_c rfl nx hgx
          have e2 : ny.swapped = false := swapped_at st hwf 4 (by omega) grig_d rfl ny hgy
          rw [er, e1, e2]
          rfl
        · subst hx; subst hy
          have e1 : nx.swapped = false := swapped_at st hwf 4 (by omega) grig_d rfl nx hgx
          have e2 : ny.swapped = false := swapped_at st hwf 3 (by omega) grig_c rfl ny hgy
          rw [er, e1, e2]
          rfl
    | none =>
      rw [hfp] at hm
      obtain ⟨nx2, hgx2, hm⟩ := Option.bind_eq_some.mp hm
      obtain ⟨ny2, hgy2, hm⟩ := Option.bind_eq_some.mp hm
      have hx2 : nx2 = nx := by rw [hgx] at hgx2; exact (Option.some.inj hgx2).symm
      have hy2 : ny2 = ny := by rw [hgy] at hgy2; exact (Option.some.inj hgy2).symm
      rw [hx2, hy2] at hm
      by_cases hsw : ny.swapped = false
      · rw [if_pos hsw] at hm
        obtain ⟨p, hp, hm⟩ := Option.bind_eq_some.mp hm
        obtain ⟨q, hq, hm⟩ := Option.bind_eq_some.mp hm
        have hlk : lookup q.1 ⟨nx.swapped, p.2, q.2, ny.last, false, -1⟩ = (st', r) :=
          Option.some.inj hm
        obtain ⟨n3, hn3, ht3⟩ := lookup_get q.1 ⟨nx.swapped, p.2, q.2, ny.last, false, -1⟩
        rw [hlk] at hn3
        have hn3' : st'.get? r = some n3 := hn3
        rw [hgr] at hn3'
        injection hn3' with hnr
        subst hnr
        have e1 : nr.swapped = nx.swapped := congrArg Prod.fst ht3
        rw [e1, hsw]
        cases nx.swapped <;> rfl
      · rw [if_neg hsw] at hm
        obtain ⟨p, hp, hm⟩ := Option.bind_eq_some.mp hm
        obtain ⟨q, hq, hm⟩ := Option.bind_eq_some.mp hm
        have hlk : lookup q.1 ⟨!nx.swapped, p.2, q.2, ny.last, false, -1⟩ = (st', r) :=
          Option.some.inj hm
        obtain ⟨n3, hn3, ht3⟩ := lookup_get q.1 ⟨!nx.swapped, p.2, q.2, ny.last, false, -1⟩
        rw [hlk] at hn3
        have hn3' : st'.get? r = some n3 := hn3
        rw [hgr] at hn3'
        injection hn3' with hnr
        subst hnr
        have e1 : nr.swapped = !nx.swapped := congrArg Prod.fst ht3
        have e2 : ny.swapped = true := by
          revert hsw
          cases ny.swapped <;> simp
        rw [e1, e2]
        cases nx.swapped <;> rfl

/-- C10 witness: `a * b` interns `(true, a, c)`; its swap flag is
`xor true false = true`. -/
theorem mul_swap_parity_witness :
    WF initStore ∧
      mulF 9 initStore 1 2 = some (initStore ++ [(⟨true, 1, 3, 'b', false, -1⟩ : RepNode)], 5) ∧
      (⟨true, 1, 3, 'b', false, -1⟩ : RepNode).swapped = Bool.xor grig_a.swapped grig_b.swapped :=
  ⟨by decide, by decide,
    mul_swap_parity 9 initStore 1 2 (by decide) grig_a grig_b (by decide) (by decide)
      (initStore ++ [(⟨true, 1, 3, 'b', false, -1⟩ : RepNode)]) 5 (by decide)
      ⟨true, 1, 3, 'b', false, -1⟩ (by decide)⟩

/-! ## Stability of the Multiplier under store extension -/

/-- Triple-preserving extension: every handle of `st` is present in `st'`
with the same structural triple (the mutable scratch fields `last`,
`visited`, `len` may differ). Store growth and the Enumerator's `visit`
mutations are both of this shape. -/
def TEq (st st' : Store) : Prop :=
  st.length ≤ st'.length ∧
    ∀ k n, st.get? k = some n → ∃ n', st'.get? k = some n' ∧ tripleOf n' = tripleOf n

lemma tEq_refl (st : Store) : TEq st st :=
  ⟨le_refl _, fun _ n h => ⟨n, h, rfl⟩⟩

lemma tEq_trans {s1 s2 s3 : Store} (h1 : TEq s1 s2) (h2 : TEq s2 s3) : TEq s1 s3 := by
  refine ⟨le_trans h1.1 h2.1, fun k n hk => ?_⟩
  obtain ⟨n2, hk2, ht2⟩ := h1.2 k n hk
  obtain ⟨n3, hk3, ht3⟩ := h2.2 k n2 hk2
  exact ⟨n3, hk3, ht3.trans ht2⟩

lemma tEq_of_storeExt {s1 s2 : Store} (h : StoreExt s1 s2) : TEq s1 s2 := by
  refine ⟨storeExt_length h, fun k n hk => ?_⟩
  have hlt : k < s1.length := by
    by_contra hcon
    rw [List.get?_eq_none.mpr (Nat.le_of_not_lt hcon)] at hk
    exact Option.noConfusion hk
  exact ⟨n, (storeExt_get? h hlt).trans hk, rfl⟩

/-- The store extension performed by a successful multiplication. -/
lemma mulF_storeExt {f : Nat} {st : Store} {x y : Nat} {st' : Store} {r : Nat}
    (h : mulF f st x y = some (st', r)) : StoreExt st st' :=
  (mulF_ext_DT f st x y st' r h).1

/-- The lookup at the end of the general case: extension and interned triple. -/
lemma lookup_out {st : Store} {x : RepNode} {st' : Store} {r : Nat}
    (h : lookup st x = (st', r)) :
    StoreExt st st' ∧ ∃ n, st'.get? r = some n ∧ tripleOf n = tripleOf x := by
  constructor
  · obtain ⟨t, ht⟩ := lookup_ext st x
    rw [h] at ht
    exact ⟨t, ht⟩
  · obtain ⟨n, hn, htr⟩ := lookup_get st x
    rw [h] at hn
    exact ⟨n, hn, htr⟩

/-- Determinism of `mul` under triple-preserving store extension: if
`mul(x, y)` succeeded once, re-running it on any triple-preserving extension
of the resulting store (with distinct triples) finds every intermediate
triple already interned, returns the same handle, and does not grow the
store at all. This is what makes hash-consed handles stable identities. -/
lemma mulF_stable :
    ∀ (f : Nat) (st : Store) (x y : Nat) (st1 : Store) (r : Nat),
      mulF f st x y = some (st1, r) →
      ∀ (st' : Store), TEq st1 st' → DistinctTriples st' →
        mulF f st' x y = some (st', r) := by
  intro f
  induction f with
  | zero => intro st x y st1 r hm; exact Option.noConfusion hm
  | succ f ih =>
    intro st x y st1 r hm st' hT hDT
    have hext01 : StoreExt st st1 := mulF_storeExt hm
    have hTst : TEq st st' := tEq_trans (tEq_of_storeExt hext01) hT
    rw [mulF_succ] at hm ⊢
    cases hfp : fastMul x y with
    | some k =>
      try rw [hfp] at hm
      try rw [hfp]
      obtain ⟨he1, he2⟩ := some_pair_eq hm
      rw [he2]
    | none =>
      try rw [hfp] at hm
      try rw [hfp]
      obtain ⟨nx, hgx, hm⟩ := Option.bind_eq_some.mp hm
      obtain ⟨ny, hgy, hm⟩ := Option.bind_eq_some.mp hm
      obtain ⟨nx', hgx', htx⟩ := hTst.2 x nx hgx
      obtain ⟨ny', hgy', hty⟩ := hTst.2 y ny hgy
      have hxa0 : nx'.a0 = nx.a0 := congrArg (fun t => t.2.1) htx
      have hxa1 : nx'.a1 = nx.a1 := congrArg (fun t => t.2.2) htx
      have hxsw : nx'.swapped = nx.swapped := congrArg Prod.fst htx
      have hya0 : ny'.a0 = ny.a0 := congrArg (fun t => t.2.1) hty
      have hya1 : ny'.a1 = ny.a1 := congrArg (fun t => t.2.2) hty
      have hysw : ny'.swapped = ny.swapped := congrArg Prod.fst hty
      rw [hgx', hgy']
      simp only [Option.some_bind]
      rw [hxa0, hxa1, hya0, hya1, hysw]
      by_cases hsw : ny.swapped = false
      · rw [if_pos hsw] at hm ⊢
        obtain ⟨p, hp, hm⟩ := Option.bind_eq_some.mp hm
        obtain ⟨q, hq, hm⟩ := Option.bind_eq_some.mp hm
        have hlk : lookup q.1 ⟨nx.swapped, p.2, q.2, ny.last, false, -1⟩ = (st1, r) :=
          Option.some.inj hm
        obtain ⟨hlkExt, n3, hn3, ht3⟩ := lookup_out hlk
        have hTp : TEq p.1 st' :=
          tEq_trans (tEq_of_storeExt (storeExt_trans (mulF_storeExt hq) hlkExt)) hT
        have hTq : TEq q.1 st' := tEq_trans (tEq_of_storeExt hlkExt) hT
        have ih1 : mulF f st' nx.a0 ny.a0 = some (st', p.2) :=
          ih st nx.a0 ny.a0 p.1 p.2 hp st' hTp hDT
        have ih2 : mulF f st' nx.a1 ny.a1 = some (st', q.2) :=
          ih p.1 nx.a1 ny.a1 q.1 q.2 hq st' hTq hDT
        rw [ih1]
        simp only [Option.some_bind]
        rw [ih2]
        simp only [Option.some_bind]
        obtain ⟨n3', hn3', ht3'⟩ := hT.2 r n3 hn3
        have hfound : lookup st' ⟨nx'.swapped, p.2, q.2, ny'.last, false, -1⟩ = (st', r) := by
          refine lookup_found st' _ r n3' hDT hn3' ?_
          rw [ht3', ht3]
          simp only [tripleOf]
          rw [hxsw]
        rw [hfound]
      · rw [if_neg hsw] at hm ⊢
        obtain ⟨p, hp, hm⟩ := Option.bind_eq_some.mp hm
        obtain ⟨q, hq, hm⟩ := Option.bind_eq_some.mp hm
        have hlk : lookup q.1 ⟨!nx.swapped, p.2, q.2, ny.last, false, -1⟩ = (st1, r) :=
          Option.some.inj hm
        obtain ⟨hlkExt, n3, hn3, ht3⟩ := lookup_out hlk
        have hTp : TEq p.1 st' :=
          tEq_trans (tEq_of_storeExt (storeExt_trans (mulF_storeExt hq) hlkExt)) hT
        have hTq : TEq q.1 st' := tEq_trans (tEq_of_storeExt hlkExt) hT
        have ih1 : mulF f st' nx.a1 ny.a0 = some (st', p.2) :=
          ih st nx.a1 ny.a0 p.1 p.2 hp st' hTp hDT
        have ih2 : mulF f st' nx.a0 ny.a1 = some (st', q.2) :=
          ih p.1 nx.a0 ny.a1 q.1 q.2 hq st' hTq hDT
        rw [ih1]
        simp only [Option.some_bind]
        rw [ih2]
        simp only [Option.some_bind]
        obtain ⟨n3', hn3', ht3'⟩ := hT.2 r n3 hn3
        have hfound : lookup st' ⟨!nx'.swapped, p.2, q.2, ny'.last, false, -1⟩ = (st', r) := by
          refine lookup_found st' _ r n3' hDT hn3' ?_
          rw [ht3', ht3]
          simp only [tripleOf]
          rw [hxsw]
        rw [hfound]

/-! ## The Lazy Graph Adapter (hrmap_grigorchuk) -/

/-- `std::map` find, for the `dec`/`enc` bijection maps (keys are unique, so
first-match semantics coincide with map semantics). -/
def mapFind (k : Nat) : List (Nat × Nat) → Option Nat
  | [] => none
  | (a, b) :: t => if a = k then some b else mapFind k t

lemma mapFind_append_some {k v : Nat} :
    ∀ {l1 : List (Nat × Nat)} (l2 : List (Nat × Nat)),
      mapFind k l1 = some v → mapFind k (l1 ++ l2) = some v := by
  intro l1
  induction l1 with
  | nil => intro l2 h; exact Option.noConfusion h
  | cons kv t ih =>
    intro l2 h
    obtain ⟨a, b⟩ := kv
    rw [List.cons_append]
    by_cases he : a = k
    · rw [mapFind, if_pos he] at h ⊢
      exact h
    · rw [mapFind, if_neg he] at h ⊢
      exact ih l2 h

lemma mapFind_append_self {k v : Nat} :
    ∀ {l1 : List (Nat × Nat)}, mapFind k l1 = none →
      mapFind k (l1 ++ [(k, v)]) = some v := by
  intro l1
  induction l1 with
  | nil => intro _; simp [mapFind]
  | cons kv t ih =>
    intro h
    obtain ⟨a, b⟩ := kv
    rw [List.cons_append]
    by_cases he : a = k
    · rw [mapFind, if_pos he] at h
      exact Option.noConfusion h
    · rw [mapFind, if_neg he] at h ⊢
      exact ih h

lemma get?_set_self : ∀ (l : List RepNode) (i : Nat) (a : RepNode),
    i < l.length → (l.set i a).get? i = some a := by
  intro l
  induction l with
  | nil => intro i a h; simp at h
  | cons x t ih =>
    intro i a h
    cases i with
    | zero => rfl
    | succ j =>
      show (t.set j a).get? j = some a
      exact ih j a (by simpa using h)

lemma get?_set_other : ∀ (l : List RepNode) (i j : Nat) (a : RepNode),
    i ≠ j → (l.set i a).get? j = l.get? j := by
  intro l
  induction l with
  | nil => intro i j a _; simp
  | cons x t ih =>
    intro i j a hne
    cases i with
    | zero =>
      cases j with
      | zero => exact absurd rfl hne
      | succ j2 => rfl
    | succ i2 =>
      cases j with
      | zero => rfl
      | succ j2 =>
        show (t.set i2 a).get? j2 = t.get? j2
        exact ih i2 j2 a (fun he => hne (by rw [he]))

lemma set_same : ∀ (l : List (Bool × Nat × Nat)) (i : Nat) (v : Bool × Nat × Nat),
    l.get? i = some v → l.set i v = l := by
  intro l
  induction l with
  | nil => intro i v h; exact Option.noConfusion h
  | cons x t ih =>
    intro i v h
    cases i with
    | zero =>
      have : x = v := Option.some.inj h
      rw [List.set]
      rw [this]
    | succ j =>
      rw [List.set]
      rw [ih j v h]

/-- `pr->last = "ACb"[d]`: overwrite the `last` field of the node at handle
`r`; the structural triple is untouched. -/
def setLast (st : Store) (r : Nat) (ch : Char) : Store :=
  match st.get? r with
  | some n => st.set r ⟨n.swapped, n.a0, n.a1, ch, n.visited, n.len⟩
  | none => st

lemma setLast_TEq (st : Store) (r : Nat) (ch : Char) : TEq st (setLast st r ch) := by
  rw [setLast]
  cases hg : st.get? r with
  | none => exact tEq_refl st
  | some n =>
    have hlt : r < st.length := by
      by_contra hcon
      rw [List.get?_eq_none.mpr (Nat.le_of_not_lt hcon)] at hg
      exact Option.noConfusion hg
    refine ⟨by simp, fun k n2 hk => ?_⟩
    by_cases hkr : k = r
    · subst hkr
      rw [hg] at hk
      have hn2 : n2 = n := (Option.some.inj hk).symm
      subst hn2
      exact ⟨⟨n2.swapped, n2.a0, n2.a1, ch, n2.visited, n2.len⟩,
        get?_set_self st k _ hlt, rfl⟩
    · exact ⟨n2, (get?_set_other st r k _ (fun he => hkr he.symm)).trans hk, rfl⟩

lemma setLast_DT (st : Store) (r : Nat) (ch : Char) (h : DistinctTriples st) :
    DistinctTriples (setLast st r ch) := by
  rw [setLast]
  cases hg : st.get? r with
  | none => exact h
  | some n =>
    show ((st.set r ⟨n.swapped, n.a0, n.a1, ch, n.visited, n.len⟩).map tripleOf).Nodup
    rw [List.map_set]
    have hmg : (st.map tripleOf).get? r = some (tripleOf n) := by
      rw [List.get?_map, hg]
      rfl
    rw [show tripleOf ⟨n.swapped, n.a0, n.a1, ch, n.visited, n.len⟩ = tripleOf n from rfl]
    rw [set_same (st.map tripleOf) r (tripleOf n) hmg]
    exact h

/-- The `switch(d)` of `create_step`: the neighbour representative in
direction `d` (0: `pr·a·c`, 1: `pr·c·a`, 2: `pr·b`; any other direction
leaves `pr` unchanged, like the C++ switch without a default case). -/
def dirMul (fuel : Nat) (st : Store) (pr : Nat) (d : Nat) : Option (Store × Nat) :=
  if d = 0 then (mulF fuel st pr 1).bind fun q => mulF fuel q.1 q.2 3
  else if d = 1 then (mulF fuel st pr 3).bind fun q => mulF fuel q.1 q.2 1
  else if d = 2 then mulF fuel st pr 2
  else some (st, pr)

lemma dirMul_ext_DT {fuel : Nat} {st : Store} {pr d : Nat} {stM : Store} {rM : Nat}
    (h : dirMul fuel st pr d = some (stM, rM)) :
    StoreExt st stM ∧ (DistinctTriples st → DistinctTriples stM) := by
  rw [dirMul] at h
  by_cases h0 : d = 0
  · rw [if_pos h0] at h
    obtain ⟨q, hq, h⟩ := Option.bind_eq_some.mp h
    obtain ⟨e1, e2⟩ := mulF_ext_DT _ _ _ _ _ _ hq
    obtain ⟨e3, e4⟩ := mulF_ext_DT _ _ _ _ _ _ h
    exact ⟨storeExt_trans e1 e3, fun hD => e4 (e2 hD)⟩
  · rw [if_neg h0] at h
    by_cases h1 : d = 1
    · rw [if_pos h1] at h
      obtain ⟨q, hq, h⟩ := Option.bind_eq_some.mp h
      obtain ⟨e1, e2⟩ := mulF_ext_DT _ _ _ _ _ _ hq
      obtain ⟨e3, e4⟩ := mulF_ext_DT _ _ _ _ _ _ h
      exact ⟨storeExt_trans e1 e3, fun hD => e4 (e2 hD)⟩
    · rw [if_neg h1] at h
      by_cases h2 : d = 2
      · rw [if_pos h2] at h
        obtain ⟨e1, e2⟩ := mulF_ext_DT _ _ _ _ _ _ h
        exact ⟨e1, e2⟩
      · rw [if_neg h2] at h
        obtain ⟨he1, he2⟩ := some_pair_eq h
        rw [he1]
        exact ⟨storeExt_refl st, fun hD => hD⟩

lemma dirMul_stable {fuel : Nat} {st : Store} {pr d : Nat} {stM : Store} {rM : Nat}
    (h : dirMul fuel st pr d = some (stM, rM))
    (st' : Store) (hT : TEq stM st') (hDT : DistinctTriples st') :
    dirMul fuel st' pr d = some (st', rM) := by
  rw [dirMul] at h ⊢
  by_cases h0 : d = 0
  · rw [if_pos h0] at h ⊢
    obtain ⟨q, hq, h⟩ := Option.bind_eq_some.mp h
    have hTq : TEq q.1 st' := tEq_trans (tEq_of_storeExt (mulF_storeExt h)) hT
    rw [mulF_stable _ _ _ _ _ _ hq st' hTq hDT]
    simp only [Option.some_bind]
    exact mulF_stable _ _ _ _ _ _ h st' hT hDT
  · rw [if_neg h0] at h ⊢
    by_cases h1 : d = 1
    · rw [if_pos h1] at h ⊢
      obtain ⟨q, hq, h⟩ := Option.bind_eq_some.mp h
      have hTq : TEq q.1 st' := tEq_trans (tEq_of_storeExt (mulF_storeExt h)) hT
      rw [mulF_stable _ _ _ _ _ _ hq st' hTq hDT]
      simp only [Option.some_bind]
      exact mulF_stable _ _ _ _ _ _ h st' hT hDT
    · rw [if_neg h1] at h ⊢
      by_cases h2 : d = 2
      · rw [if_pos h2] at h ⊢
        exact mulF_stable _ _ _ _ _ _ h st' hT hDT
      · rw [if_neg h2] at h ⊢
        obtain ⟨he1, he2⟩ := some_pair_eq h
        rw [he2]

/-- The state of `hrmap_grigorchuk`: the shared Canonical Form Store, the two
bijection maps `dec : heptagon → rep` and `enc : rep → heptagon` (host graph
nodes are modelled as `Nat` identifiers), and the allocator for fresh nodes
(`tailored_alloc`). -/
structure AdState where
  store : Store
  dec : List (Nat × Nat)
  enc : List (Nat × Nat)
  nextNode : Nat
deriving DecidableEq

/-- `"ACb"[d]`: the label recorded on a freshly reached representative. -/
def dirSym (d : Nat) : Char :=
  if d = 0 then 'A' else if d = 1 then 'C' else 'b'

/-- `heptagon *create_step(heptagon *p, int d)`: look up the representative
bound to `p`, multiply it in direction `d`, and either return the node
already bound to the neighbour representative or allocate a fresh node, tag
the representative's `last` with `"ACb"[d]`, and tie the pair into both maps
(`gtie`). An unbound `p` is undefined behaviour in C++ (`dec[p]` inserts a
null pointer which is then dereferenced), modelled as `none`. The host
geometry wiring (`c.connect`, `distance`) is outside the adapter's bijection
and not modelled. -/
def stepF (fuel : Nat) (ad : AdState) (p : Nat) (d : Nat) : Option (AdState × Nat) :=
  (mapFind p ad.dec).bind fun pr =>
    (dirMul fuel ad.store pr d).bind fun q =>
      match mapFind q.2 ad.enc with
      | some h => some ({ad with store := q.1}, h)
      | none =>
        some ({ store := setLast q.1 q.2 (dirSym d),
                dec := ad.dec ++ [(ad.nextNode, q.2)],
                enc := ad.enc ++ [(q.2, ad.nextNode)],
                nextNode := ad.nextNode + 1 }, ad.nextNode)

/-- C9. Adapter idempotence: for every graph node `p` already bound in the
bijection and every direction `d`, a second `step(p, d)` call returns
exactly the node the first call returned, and changes nothing — no second
node is ever allocated for the same neighbour representative. -/
theorem step_idempotent (f : Nat) (ad : AdState) (p d : Nat)
    (hDT : DistinctTriples ad.store)
    (ad1 : AdState) (h : Nat) (h1 : stepF f ad p d = some (ad1, h)) :
    stepF f ad1 p d = some (ad1, h) := by
  rw [stepF] at h1
  obtain ⟨pr, hdec, h1⟩ := Option.bind_eq_some.mp h1
  obtain ⟨q, hq, h1⟩ := Option.bind_eq_some.mp h1
  have hDTq : DistinctTriples q.1 := (dirMul_ext_DT hq).2 hDT
  cases henc : mapFind q.2 ad.enc with
  | some h0 =>
    rw [henc] at h1
    have h2 : ({ad with store := q.1}, h0) = (ad1, h) := Option.some.inj h1
    have had1 : ad1 = {ad with store := q.1} := (congrArg Prod.fst h2).symm
    have hh : h = h0 := (congrArg Prod.snd h2).symm
    subst had1
    subst hh
    have e2 : dirMul f q.1 pr d = some (q.1, q.2) :=
      dirMul_stable hq q.1 (tEq_refl q.1) hDTq
    rw [stepF]
    simp only [hdec, Option.some_bind, e2, henc]
  | none =>
    rw [henc] at h1
    have h2 : (({ store := setLast q.1 q.2 (dirSym d),
                  dec := ad.dec ++ [(ad.nextNode, q.2)],
                  enc := ad.enc ++ [(q.2, ad.nextNode)],
                  nextNode := ad.nextNode + 1 } : AdState), ad.nextNode) = (ad1, h) :=
      Option.some.inj h1
    have had1 : ad1 = { store := setLast q.1 q.2 (dirSym d),
                        dec := ad.dec ++ [(ad.nextNode, q.2)],
                        enc := ad.enc ++ [(q.2, ad.nextNode)],
                        nextNode := ad.nextNode + 1 } := (congrArg Prod.fst h2).symm
    have hh : h = ad.nextNode := (congrArg Prod.snd h2).symm
    subst had1
    subst hh
    have e1 : mapFind p (ad.dec ++ [(ad.nextNode, q.2)]) = some pr :=
      mapFind_append_some _ hdec
    have e2 : dirMul f (setLast q.1 q.2 (dirSym d)) pr d
        = some (setLast q.1 q.2 (dirSym d), q.2) :=
      dirMul_stable hq _ (setLast_TEq q.1 q.2 (dirSym d))
        (setLast_DT q.1 q.2 (dirSym d) hDTq)
    have e3 : mapFind q.2 (ad.enc ++ [(q.2, ad.nextNode)]) = some ad.nextNode :=
      mapFind_append_self henc
    rw [stepF]
    simp only [e1, Option.some_bind, e2, e3]

/-- C9 witness: from the origin (node 0 bound to the identity), stepping in
direction 0 allocates node 1 for the representative `ac`; stepping again
returns node 1 with the adapter state unchanged. -/
theorem step_idempotent_witness :
    DistinctTriples (⟨initStore, [(0, 0)], [(0, 0)], 1⟩ : AdState).store ∧
      stepF 8 ⟨initStore, [(0, 0)], [(0, 0)], 1⟩ 0 0 =
        some (⟨initStore ++ [(⟨true, 1, 4, 'A', false, -1⟩ : RepNode)],
          [(0, 0), (1, 5)], [(0, 0), (5, 1)], 2⟩, 1) ∧
      stepF 8 ⟨initStore ++ [(⟨true, 1, 4, 'A', false, -1⟩ : RepNode)],
          [(0, 0), (1, 5)], [(0, 0), (5, 1)], 2⟩ 0 0 =
        some (⟨initStore ++ [(⟨true, 1, 4, 'A', false, -1⟩ : RepNode)],
          [(0, 0), (1, 5)], [(0, 0), (5, 1)], 2⟩, 1) :=
  ⟨by decide, by decide,
    step_idempotent 8 ⟨initStore, [(0, 0)], [(0, 0)], 1⟩ 0 0 (by decide)
      ⟨initStore ++ [(⟨true, 1, 4, 'A', false, -1⟩ : RepNode)],
        [(0, 0), (1, 5)], [(0, 0), (5, 1)], 2⟩ 1 (by decide)⟩

/-! ## The Cayley-Layer Enumerator (prepare) -/

/-- BFS distance recorded on a representative (`x->len`). -/
def lenOf (st : Store) (x : Nat) : Int :=
  (st.getD x grig_I).len

/-- The `visit` lambda of `prepare`:
`if(!x->visited) x->visited = true, x->last = l, all.push_back(x), x->len = d;`. -/
def visit (st : Store) (all : List Nat) (x : Nat) (l : Char) (d : Int) :
    Store × List Nat :=
  match st.get? x with
  | none => (st, all)
  | some n =>
    if n.visited then (st, all)
    else (st.set x ⟨n.swapped, n.a0, n.a1, l, true, d⟩, all ++ [x])

/-- One neighbour discovery: `visit(mul(x, g), l, x->len + 1)`. -/
def visitStep (fuel : Nat) (st : Store) (all : List Nat) (x g : Nat) (l : Char) :
    Option (Store × List Nat) :=
  (mulF fuel st x g).bind fun q =>
    some (visit q.1 all q.2 l (lenOf q.1 x + 1))

/-- The BFS loop of `prepare`: process `budget` representatives in discovery
order (`for(int i=0; i<grig_limit; i++)`), each discovering its three
neighbours `x·b`, `x·ac`, `x·ca`. Reading `all[i]` past the end of the
discovery list is undefined behaviour in C++, modelled as `none`. (The
`printf` progress line does not affect the state and is not modelled.) -/
def prepLoop (fuel hac hca : Nat) :
    Nat → Store → List Nat → Nat → Option (Store × List Nat)
  | 0, st, all, _ => some (st, all)
  | b + 1, st, all, i =>
    match all.get? i with
    | none => none
    | some x =>
      (visitStep fuel st all x 2 'b').bind fun s1 =>
        (visitStep fuel s1.1 s1.2 x hac 'A').bind fun s2 =>
          (visitStep fuel s2.1 s2.2 x hca 'C').bind fun s3 =>
            prepLoop fuel hac hca b s3.1 s3.2 (i + 1)

/-- `void prepare()`: compute the derived generators `ac = mul(a, c)` and
`ca = mul(c, a)`, visit the identity with distance 0, then run the BFS loop
for `budget` (`grig_limit`) iterations. Returns the final store, the
discovery list `all`, and the handles of `ac` and `ca`. -/
def prepare (fuel budget : Nat) : Option (Store × List Nat × Nat × Nat) :=
  (mulF fuel initStore 1 3).bind fun qac =>
    (mulF fuel qac.1 3 1).bind fun qca =>
      (prepLoop fuel qac.2 qca.2 budget (visit qca.1 [] 0 (Char.ofNat 0) 0).1
          (visit qca.1 [] 0 (Char.ofNat 0) 0).2 0).bind fun res =>
        some (res.1, res.2, qac.2, qca.2)

/-! ## Associativity of the Multiplier on enumerated representatives (C5) -/

/-- Compute `(x*y)*z` and `x*(y*z)` (threading the shared store through all
four multiplications) and compare the resulting handles. -/
def assocTriple (fuel : Nat) (st : Store) (x y z : Nat) : Option (Store × Bool) :=
  (mulF fuel st x y).bind fun pxy =>
    (mulF fuel pxy.1 pxy.2 z).bind fun pl =>
      (mulF fuel pl.1 y z).bind fun pyz =>
        (mulF fuel pyz.1 x pyz.2).bind fun pr =>
          some (pr.1, pl.2 == pr.2)

def assocFold (fuel : Nat) : Store → List (Nat × Nat × Nat) → Bool
  | _, [] => true
  | st, (x, y, z) :: rest =>
    match assocTriple fuel st x y z with
    | some (st2, true) => assocFold fuel st2 rest
    | _ => false

/-- Run the Enumerator with the given node budget and check associativity of
`mul` on every triple of discovered representatives. -/
def assocAll (fuel budget : Nat) : Bool :=
  match prepare fuel budget with
  | none => false
  | some (st, all, _, _) =>
    assocFold fuel st
      (all.bind fun x => all.bind fun y => all.map fun z => (x, y, z))

set_option maxRecDepth 40000 in
set_option maxHeartbeats 3000000 in
/-- C5. Multiplier associativity: running the Enumerator with a sampling
bound of 2 processed representatives and checking every triple (x, y, z) of
discovered representatives, `mul(mul(x,y),z)` and `mul(x,mul(y,z))` always
return the same canonical representative (the same handle in the shared
store). -/
theorem mul_assoc_enumerated : assocAll 64 2 = true := by decide

/-! ## BFS invariants of the Enumerator (C8) -/

/-- Nodes appended to the store by `lookup` are exactly the candidate. -/
lemma lookup_new {st : Store} {x : RepNode} {st' : Store} {i : Nat}
    (h : lookup st x = (st', i)) :
    ∀ k n, st'.get? k = some n → st.length ≤ k → n = x := by
  intro k n hk hge
  rw [lookup] at h
  cases hft : findTriple x st with
  | some j =>
    rw [hft] at h
    have hst : st' = st := congrArg Prod.fst h.symm
    subst hst
    rw [List.get?_eq_none.mpr hge] at hk
    exact Option.noConfusion hk
  | none =>
    rw [hft] at h
    have hst : st' = st ++ [x] := congrArg Prod.fst h.symm
    subst hst
    have hlen : k < st.length + 1 := by
      by_contra hcon
      rw [List.get?_eq_none.mpr (by simpa using Nat.le_of_not_lt hcon)] at hk
      exact Option.noConfusion hk
    have hke : k = st.length := by omega
    subst hke
    rw [List.get?_append_right (le_refl st.length)] at hk
    simp at hk
    exact hk.symm

/-- Every node a successful multiplication appends to the store is fresh
scratch: unvisited, with unset (`-1`) BFS distance. -/
lemma mulF_new_nodes :
    ∀ (f : Nat) (st : Store) (x y : Nat) (st' : Store) (r : Nat),
      mulF f st x y = some (st', r) →
      ∀ k n, st'.get? k = some n → st.length ≤ k →
        n.visited = false ∧ n.len = -1 := by
  intro f
  induction f with
  | zero => intro st x y st' r hm; exact Option.noConfusion hm
  | succ f ih =>
    intro st x y st' r hm k n hk hge
    rw [mulF_succ] at hm
    cases hfp : fastMul x y with
    | some k2 =>
      rw [hfp] at hm
      obtain ⟨rfl, rfl⟩ := some_pair_eq hm
      rw [List.get?_eq_none.mpr hge] at hk
      exact Option.noConfusion hk
    | none =>
      rw [hfp] at hm
      obtain ⟨nx, hgx, hm⟩ := Option.bind_eq_some.mp hm
      obtain ⟨ny, hgy, hm⟩ := Option.bind_eq_some.mp hm
      by_cases hsw : ny.swapped = false
      · rw [if_pos hsw] at hm
        obtain ⟨p, hp, hm⟩ := Option.bind_eq_some.mp hm
        obtain ⟨q, hq, hm⟩ := Option.bind_eq_some.mp hm
        have hlk : lookup q.1 ⟨nx.swapped, p.2, q.2, ny.last, false, -1⟩ = (st', r) :=
          Option.some.inj hm
        by_cases hk1 : k < p.1.length
        · by_cases hk0 : k < st.length
          · omega
          · have hkp : st'.get? k = p.1.get? k := by
              obtain ⟨hlkExt, _⟩ := lookup_out hlk
              rw [storeExt_get? (storeExt_trans (mulF_storeExt hq) hlkExt) hk1]
            rw [hkp] at hk
            exact ih st nx.a0 ny.a0 p.1 p.2 hp k n hk hge
        · by_cases hk2 : k < q.1.length
          · have hkq : st'.get? k = q.1.get? k := by
              obtain ⟨hlkExt, _⟩ := lookup_out hlk
              rw [storeExt_get? hlkExt hk2]
            rw [hkq] at hk
            exact ih p.1 nx.a1 ny.a1 q.1 q.2 hq k n hk (Nat.le_of_not_lt hk1)
          · have := lookup_new hlk k n hk (Nat.le_of_not_lt hk2)
            subst this
            exact ⟨rfl, rfl⟩
      · rw [if_neg hsw] at hm
        obtain ⟨p, hp, hm⟩ := Option.bind_eq_some.mp hm
        obtain ⟨q, hq, hm⟩ := Option.bind_eq_some.mp hm
        have hlk : lookup q.1 ⟨!nx.swapped, p.2, q.2, ny.last, false, -1⟩ = (st', r) :=
          Option.some.inj hm
        by_cases hk1 : k < p.1.length
        · by_cases hk0 : k < st.length
          · omega
          · have hkp : st'.get? k = p.1.get? k := by
              obtain ⟨hlkExt, _⟩ := lookup_out hlk
              rw [storeExt_get? (storeExt_trans (mulF_storeExt hq) hlkExt) hk1]
            rw [hkp] at hk
            exact ih st nx.a1 ny.a0 p.1 p.2 hp k n hk hge
        · by_cases hk2 : k < q.1.length
          · have hkq : st'.get? k = q.1.get? k := by
              obtain ⟨hlkExt, _⟩ := lookup_out hlk
              rw [storeExt_get? hlkExt hk2]
            rw [hkq] at hk
            exact ih p.1 nx.a0 ny.a1 q.1 q.2 hq k n hk (Nat.le_of_not_lt hk1)
          · have := lookup_new hlk k n hk (Nat.le_of_not_lt hk2)
            subst this
            exact ⟨rfl, rfl⟩

/-- Handle validity: the store holds at least the five fixed representatives
and every node's children are valid handles. -/
def WFC (st : Store) : Prop :=
  5 ≤ st.length ∧ ∀ n ∈ st, n.a0 < st.length ∧ n.a1 < st.length

lemma WFC_append {st : Store} {x : RepNode} (h : WFC st)
    (hx0 : x.a0 < st.length + 1) (hx1 : x.a1 < st.length + 1) :
    WFC (st ++ [x]) := by
  have h5 := h.1
  refine ⟨by simp; omega, fun n hn => ?_⟩
  rcases List.mem_append.mp hn with hn | hn
  · obtain ⟨e0, e1⟩ := h.2 n hn
    simp only [List.length_append, List.length_singleton]
    omega
  · simp only [List.mem_singleton] at hn
    subst hn
    simp only [List.length_append, List.length_singleton]
    omega

lemma lookup_WFC {st : Store} {x : RepNode} (h : WFC st)
    (hx0 : x.a0 < st.length) (hx1 : x.a1 < st.length) :
    WFC (lookup st x).1 ∧ (lookup st x).2 < (lookup st x).1.length := by
  rw [lookup]
  cases hft : findTriple x st with
  | some i =>
    obtain ⟨n, hn, _⟩ := findTriple_some st x i hft
    refine ⟨h, ?_⟩
    by_contra hcon
    rw [List.get?_eq_none.mpr (Nat.le_of_not_lt hcon)] at hn
    exact Option.noConfusion hn
  | none =>
    refine ⟨WFC_append h (Nat.lt_succ_of_lt hx0) (Nat.lt_succ_of_lt hx1), by simp⟩

/-- A successful multiplication on valid handles returns a valid handle and
preserves handle validity of the store. -/
lemma mulF_valid :
    ∀ (f : Nat) (st : Store) (x y : Nat) (st' : Store) (r : Nat),
      mulF f st x y = some (st', r) → WFC st → x < st.length → y < st.length →
      WFC st' ∧ r < st'.length := by
  intro f
  induction f with
  | zero => intro st x y st' r hm; exact fun _ _ _ => Option.noConfusion hm
  | succ f ih =>
    intro st x y st' r hm hW hx hy
    rw [mulF_succ] at hm
    cases hfp : fastMul x y with
    | some k =>
      rw [hfp] at hm
      obtain ⟨rfl, rfl⟩ := some_pair_eq hm
      refine ⟨hW, ?_⟩
      have h5 := hW.1
      rcases fastMul_spec x y _ hfp with ⟨_, hk⟩ | ⟨_, hk⟩ |
        ⟨_, _, hk⟩ | ⟨_, hk⟩ | ⟨_, hk⟩ | ⟨_, hk⟩ <;> subst hk <;> omega
    | none =>
      rw [hfp] at hm
      obtain ⟨nx, hgx, hm⟩ := Option.bind_eq_some.mp hm
      obtain ⟨ny, hgy, hm⟩ := Option.bind_eq_some.mp hm
      have hnxm : nx ∈ st := List.get?_mem hgx
      have hnym : ny ∈ st := List.get?_mem hgy
      obtain ⟨hxa0, hxa1⟩ := hW.2 nx hnxm
      obtain ⟨hya0, hya1⟩ := hW.2 ny hnym
      by_cases hsw : ny.swapped = false
      · rw [if_pos hsw] at hm
        obtain ⟨p, hp, hm⟩ := Option.bind_eq_some.mp hm
        obtain ⟨q, hq, hm⟩ := Option.bind_eq_some.mp hm
        have hlk : lookup q.1 ⟨nx.swapped, p.2, q.2, ny.last, false, -1⟩ = (st', r) :=
          Option.some.inj hm
        obtain ⟨hWp, hrp⟩ := ih st nx.a0 ny.a0 p.1 p.2 hp hW hxa0 hya0
        have hlep : st.length ≤ p.1.length := storeExt_length (mulF_storeExt hp)
        obtain ⟨hWq, hrq⟩ := ih p.1 nx.a1 ny.a1 q.1 q.2 hq hWp (by omega) (by omega)
        have hleq : p.1.length ≤ q.1.length := storeExt_length (mulF_storeExt hq)
        obtain ⟨hWl, hrl⟩ := @lookup_WFC q.1 ⟨nx.swapped, p.2, q.2, ny.last, false, -1⟩
          hWq (by show p.2 < q.1.length; omega) (by show q.2 < q.1.length; omega)
        rw [hlk] at hWl hrl
        exact ⟨hWl, hrl⟩
      · rw [if_neg hsw] at hm
        obtain ⟨p, hp, hm⟩ := Option.bind_eq_some.mp hm
        obtain ⟨q, hq, hm⟩ := Option.bind_eq_some.mp hm
        have hlk : lookup q.1 ⟨!nx.swapped, p.2, q.2, ny.last, false, -1⟩ = (st', r) :=
          Option.some.inj hm
        obtain ⟨hWp, hrp⟩ := ih st nx.a1 ny.a0 p.1 p.2 hp hW hxa1 hya0
        have hlep : st.length ≤ p.1.length := storeExt_length (mulF_storeExt hp)
        obtain ⟨hWq, hrq⟩ := ih p.1 nx.a0 ny.a1 q.1 q.2 hq hWp (by omega) (by omega)
        have hleq : p.1.length ≤ q.1.length := storeExt_length (mulF_storeExt hq)
        obtain ⟨hWl, hrl⟩ := @lookup_WFC q.1 ⟨!nx.swapped, p.2, q.2, ny.last, false, -1⟩
          hWq (by show p.2 < q.1.length; omega) (by show q.2 < q.1.length; omega)
        rw [hlk] at hWl hrl
        exact ⟨hWl, hrl⟩

lemma getD_of_get? : ∀ {st : Store} {x : Nat} {n : RepNode},
    st.get? x = some n → st.getD x grig_I = n := by
  intro st
  induction st with
  | nil => intro x n h; exact Option.noConfusion h
  | cons m t ih =>
    intro x n h
    cases x with
    | zero => exact Option.some.inj h
    | succ j => exact ih h

lemma set_node_TEq {st : Store} {r : Nat} {n nn : RepNode}
    (hg : st.get? r = some n) (ht : tripleOf nn = tripleOf n) :
    TEq st (st.set r nn) := by
  have hlt : r < st.length := by
    by_contra hcon
    rw [List.get?_eq_none.mpr (Nat.le_of_not_lt hcon)] at hg
    exact Option.noConfusion hg
  refine ⟨by simp, fun k n2 hk => ?_⟩
  by_cases hkr : k = r
  · subst hkr
    rw [hg] at hk
    have hn2 : n2 = n := (Option.some.inj hk).symm
    subst hn2
    exact ⟨nn, get?_set_self st k nn hlt, ht⟩
  · exact ⟨n2, (get?_set_other st r k nn (fun he => hkr he.symm)).trans hk, rfl⟩

lemma set_node_DT {st : Store} {r : Nat} {n nn : RepNode}
    (hg : st.get? r = some n) (ht : tripleOf nn = tripleOf n)
    (hD : DistinctTriples st) : DistinctTriples (st.set r nn) := by
  show ((st.set r nn).map tripleOf).Nodup
  rw [List.map_set, ht]
  have hmg : (st.map tripleOf).get? r = some (tripleOf n) := by
    rw [List.get?_map, hg]
    rfl
  rw [set_same (st.map tripleOf) r (tripleOf n) hmg]
  exact hD

lemma set_node_WFC {st : Store} {r : Nat} {nn : RepNode}
    (hW : WFC st) (h0 : nn.a0 < st.length) (h1 : nn.a1 < st.length) :
    WFC (st.set r nn) := by
  refine ⟨by simp; exact hW.1, fun m hm => ?_⟩
  rcases List.mem_or_eq_of_mem_set hm with hm | hm
  · obtain ⟨e0, e1⟩ := hW.2 m hm
    simp only [List.length_set]
    exact ⟨e0, e1⟩
  · subst hm
    simp only [List.length_set]
    exact ⟨h0, h1⟩

lemma tEq_getD {st st' : Store} (h : TEq st st') {x : Nat} (hx : x < st.length) :
    tripleOf (st'.getD x grig_I) = tripleOf (st.getD x grig_I) := by
  cases hg : st.get? x with
  | none =>
    have := List.get?_eq_none.mp hg
    omega
  | some n =>
    obtain ⟨n', hg', ht⟩ := h.2 x n hg
    rw [getD_of_get? hg, getD_of_get? hg']
    exact ht

lemma visit_some {st : Store} {x : Nat} {n : RepNode} (all : List Nat) (l : Char) (d : Int)
    (h : st.get? x = some n) :
    visit st all x l d =
      if n.visited then (st, all)
      else (st.set x ⟨n.swapped, n.a0, n.a1, l, true, d⟩, all ++ [x]) := by
  unfold visit
  rw [h]

/-- What one neighbour discovery (`visit(mul(x, g), l, x->len + 1)`) does to
the Enumerator state: it returns some representative `v` (re-computable as
`mul(x, g)` in the post store, with no further growth), preserves every
already-visited node verbatim, keeps "visited ⟺ discovered" tight, and
either finds `v` already discovered or appends it with distance
`x->len + 1`. -/
lemma visitStep_spec
    (fuel : Nat) (st : Store) (all : List Nat) (x g : Nat) (l : Char)
    (st2 : Store) (all2 : List Nat)
    (hstep : visitStep fuel st all x g l = some (st2, all2))
    (hDT : DistinctTriples st) (hW : WFC st)
    (hx : x < st.length) (hg : g < st.length)
    (hvm : ∀ y, y < st.length → ((st.getD y grig_I).visited = true ↔ y ∈ all))
    (hallv : ∀ y ∈ all, y < st.length)
    (hxvis : (st.getD x grig_I).visited = true) :
    ∃ v,
      mulF fuel st2 x g = some (st2, v) ∧
      v < st2.length ∧ v ∈ all2 ∧
      DistinctTriples st2 ∧ WFC st2 ∧ st.length ≤ st2.length ∧ TEq st st2 ∧
      (∀ y, y < st.length → (st.getD y grig_I).visited = true →
        st2.getD y grig_I = st.getD y grig_I) ∧
      (∀ y, y < st2.length → ((st2.getD y grig_I).visited = true ↔ y ∈ all2)) ∧
      (∀ y ∈ all2, y < st2.length) ∧
      (all2 = all ∨ (all2 = all ++ [v] ∧ v ∉ all ∧ lenOf st2 v = lenOf st x + 1)) := by
  rw [visitStep] at hstep
  obtain ⟨q, hq, he⟩ := Option.bind_eq_some.mp hstep
  have hv : visit q.1 all q.2 l (lenOf q.1 x + 1) = (st2, all2) := Option.some.inj he
  have hExt : StoreExt st q.1 := mulF_storeExt hq
  have hDTq : DistinctTriples q.1 := (mulF_ext_DT _ _ _ _ _ _ hq).2 hDT
  obtain ⟨hWq, hrq⟩ := mulF_valid _ _ _ _ _ _ hq hW hx hg
  have hlenq : st.length ≤ q.1.length := storeExt_length hExt
  have hpres : ∀ y, y < st.length → q.1.getD y grig_I = st.getD y grig_I := by
    intro y hy
    cases hgy : st.get? y with
    | none =>
      have := List.get?_eq_none.mp hgy
      omega
    | some n =>
      rw [getD_of_get? hgy, getD_of_get? ((storeExt_get? hExt hy).trans hgy)]
  have hvmq : ∀ y, y < q.1.length → ((q.1.getD y grig_I).visited = true ↔ y ∈ all) := by
    intro y hy
    by_cases hys : y < st.length
    · rw [hpres y hys]
      exact hvm y hys
    · constructor
      · intro hvis
        exfalso
        cases hgy : q.1.get? y with
        | none =>
          have := List.get?_eq_none.mp hgy
          omega
        | some n =>
          have hnew := mulF_new_nodes _ _ _ _ _ _ hq y n hgy (Nat.le_of_not_lt hys)
          rw [getD_of_get? hgy, hnew.1] at hvis
          exact Bool.noConfusion hvis
      · intro hmem
        exact absurd (hallv y hmem) hys
  have hxq : q.1.getD x grig_I = st.getD x grig_I := hpres x hx
  have hlenx : lenOf q.1 x = lenOf st x := by
    rw [lenOf, lenOf, hxq]
  cases hgq : q.1.get? q.2 with
  | none =>
    have := List.get?_eq_none.mp hgq
    omega
  | some n =>
    rw [visit_some all l (lenOf q.1 x + 1) hgq] at hv
    by_cases hvis : n.visited = true
    · rw [if_pos hvis] at hv
      have hst2 : st2 = q.1 := (congrArg Prod.fst hv).symm
      have hall2 : all2 = all := (congrArg Prod.snd hv).symm
      subst hst2
      subst hall2
      refine ⟨q.2, mulF_stable _ _ _ _ _ _ hq q.1 (tEq_refl q.1) hDTq, hrq, ?_,
        hDTq, hWq, hlenq, tEq_of_storeExt hExt, fun y hy _ => hpres y hy, hvmq,
        fun y hy => lt_of_lt_of_le (hallv y hy) hlenq, Or.inl rfl⟩
      have hmem := (hvmq q.2 hrq).mp
      rw [getD_of_get? hgq] at hmem
      exact hmem hvis
    · rw [if_neg hvis] at hv
      have hst2 : st2 = q.1.set q.2 ⟨n.swapped, n.a0, n.a1, l, true, lenOf q.1 x + 1⟩ :=
        (congrArg Prod.fst hv).symm
      have hall2 : all2 = all ++ [q.2] := (congrArg Prod.snd hv).symm
      have hnvis : n.visited = false := by
        cases hb : n.visited with
        | false => rfl
        | true => exact absurd hb hvis
      have hTq2 : TEq q.1 st2 := by
        rw [hst2]
        exact set_node_TEq hgq rfl
      have hDT2 : DistinctTriples st2 := by
        rw [hst2]
        exact set_node_DT hgq rfl hDTq
      have hW2 : WFC st2 := by
        rw [hst2]
        obtain ⟨e0, e1⟩ := hWq.2 n (List.get?_mem hgq)
        exact set_node_WFC hWq e0 e1
      have hlen2 : st2.length = q.1.length := by
        rw [hst2]
        simp
      have hnotall : q.2 ∉ all := by
        intro hmem
        have hvq := (hvmq q.2 hrq).mpr hmem
        rw [getD_of_get? hgq, hnvis] at hvq
        exact Bool.noConfusion hvq
      have hget2 : st2.get? q.2 =
          some ⟨n.swapped, n.a0, n.a1, l, true, lenOf q.1 x + 1⟩ := by
        rw [hst2]
        exact get?_set_self q.1 q.2 _ hrq
      have hother : ∀ y, y ≠ q.2 → st2.get? y = q.1.get? y := by
        intro y hy
        rw [hst2]
        exact get?_set_other q.1 q.2 y _ (fun he => hy he.symm)
      refine ⟨q.2, mulF_stable _ _ _ _ _ _ hq st2 hTq2 hDT2, by omega,
        by rw [hall2]; simp, hDT2, hW2, by omega,
        tEq_trans (tEq_of_storeExt hExt) hTq2, ?_, ?_, ?_, ?_⟩
      · intro y hy hvy
        have hyq : y ≠ q.2 := by
          intro he
          have h1 : (q.1.getD y grig_I).visited = true := by
            rw [hpres y hy]
            exact hvy
          rw [he, getD_of_get? hgq, hnvis] at h1
          exact Bool.noConfusion h1
        rw [← hpres y hy]
        cases hgy : q.1.get? y with
        | none =>
          have := List.get?_eq_none.mp hgy
          omega
        | some m =>
          rw [getD_of_get? ((hother y hyq).trans hgy), getD_of_get? hgy]
      · intro y hy
        by_cases hyq : y = q.2
        · subst hyq
          rw [getD_of_get? hget2, hall2]
          simp
        · have hy1 : y < q.1.length := by omega
          cases hgy : q.1.get? y with
          | none =>
            have := List.get?_eq_none.mp hgy
            omega
          | some m =>
            rw [getD_of_get? ((hother y hyq).trans hgy)]
            have hvmy := hvmq y hy1
            rw [getD_of_get? hgy] at hvmy
            rw [hall2]
            constructor
            · intro hvy
              exact List.mem_append_left _ (hvmy.mp hvy)
            · intro hmy
              rcases List.mem_append.mp hmy with hmy | hmy
              · exact hvmy.mpr hmy
              · simp at hmy
                exact absurd hmy hyq
      · intro y hy
        rw [hall2] at hy
        rcases List.mem_append.mp hy with hy | hy
        · exact lt_of_lt_of_le (hallv y hy) (by omega)
        · simp at hy
          subst hy
          omega
      · refine Or.inr ⟨hall2, hnotall, ?_⟩
        rw [lenOf, getD_of_get? hget2, hlenx]

/-- The loop invariant of the Enumerator's BFS: the store is well-formed, the
derived generator handles are valid, the discovery list `all` matches the
`visited` flags, the identity sits at the head with distance 0, distances are
non-decreasing in discovery order, and every discovered distance is at most
one more than the distance of the representative about to be processed. -/
def PrepInv (hac hca : Nat) (st : Store) (all : List Nat) (i : Nat) : Prop :=
  DistinctTriples st ∧ WFC st ∧
  hac < st.length ∧ hca < st.length ∧
  (∀ y ∈ all, y < st.length) ∧
  (∀ y, y < st.length → ((st.getD y grig_I).visited = true ↔ y ∈ all)) ∧
  i ≤ all.length ∧
  all.get? 0 = some 0 ∧
  lenOf st 0 = 0 ∧
  List.Pairwise (fun u v => lenOf st u ≤ lenOf st v) all ∧
  (∀ v, all.get? i = some v → ∀ j u, all.get? j = some u →
    lenOf st u ≤ lenOf st v + 1)

lemma pairwise_get? {α : Type} {R : α → α → Prop} :
    ∀ {l : List α}, List.Pairwise R l → ∀ {i j : Nat}, i < j →
      ∀ {u v : α}, l.get? i = some u → l.get? j = some v → R u v := by
  intro l hl
  induction hl with
  | nil =>
    intro i j _ u v hu _
    exact Option.noConfusion hu
  | cons hr _ ih =>
    intro i j hij u v hu hv
    cases i with
    | zero =>
      cases j with
      | zero => omega
      | succ j =>
        have hu' : _ = u := Option.some.inj hu
        subst hu'
        exact hr v (List.get?_mem hv)
    | succ i =>
      cases j with
      | zero => omega
      | succ j => exact ih (by omega) hu hv

/-- One `visit(mul(x, g), l, x->len + 1)` call inside the BFS loop preserves
the loop invariant, keeps `x` at slot `i`, and discovers a representative `v`
(re-computable in the post store) whose distance is at most `x`'s plus one;
any genuinely new entry is exactly `v` at distance exactly `x`'s plus one. -/
lemma visitStep_inv {fuel hac hca : Nat} {st : Store} {all : List Nat} {i x g : Nat}
    {l : Char} {st2 : Store} {all2 : List Nat}
    (hstep : visitStep fuel st all x g l = some (st2, all2))
    (hg : g < st.length)
    (hInv : PrepInv hac hca st all i)
    (hx : all.get? i = some x) :
    PrepInv hac hca st2 all2 i ∧
    all2.get? i = some x ∧
    TEq st st2 ∧ st.length ≤ st2.length ∧
    (∀ y, y < st.length → (st.getD y grig_I).visited = true →
      st2.getD y grig_I = st.getD y grig_I) ∧
    (∃ t, all2 = all ++ t) ∧
    (∃ v, mulF fuel st2 x g = some (st2, v) ∧ v ∈ all2 ∧
      lenOf st2 v ≤ lenOf st2 x + 1 ∧
      ∀ w ∈ all2, w ∉ all → w = v ∧ lenOf st2 w = lenOf st2 x + 1) := by
  obtain ⟨hDT, hW, hhac, hhca, hallv, hvm, hile, h0, hlen0, hsort, hfront⟩ := hInv
  have hxmem : x ∈ all := List.get?_mem hx
  have hxlt : x < st.length := hallv x hxmem
  have hxvis : (st.getD x grig_I).visited = true := (hvm x hxlt).mpr hxmem
  obtain ⟨v, hmv, hvlt, hvmem, hDT2, hW2, hlen2, hTEq, hpres, hvm2, hallv2, hdisc⟩ :=
    visitStep_spec fuel st all x g l st2 all2 hstep hDT hW hxlt hg hvm hallv hxvis
  have hxpres : st2.getD x grig_I = st.getD x grig_I := hpres x hxlt hxvis
  have hlenx : lenOf st2 x = lenOf st x := by
    rw [lenOf, lenOf, hxpres]
  have hmemlen : ∀ y ∈ all, lenOf st2 y = lenOf st y := by
    intro y hy
    have hylt := hallv y hy
    rw [lenOf, lenOf, hpres y hylt ((hvm y hylt).mpr hy)]
  have h0mem : (0 : Nat) ∈ all := List.get?_mem h0
  have h0lt : 0 < all.length := by
    by_contra hcon
    rw [List.get?_eq_none.mpr (Nat.le_of_not_lt hcon)] at h0
    exact Option.noConfusion h0
  have hilt : i < all.length := by
    by_contra hcon
    rw [List.get?_eq_none.mpr (Nat.le_of_not_lt hcon)] at hx
    exact Option.noConfusion hx
  have hsort2 : List.Pairwise (fun u v => lenOf st2 u ≤ lenOf st2 v) all := by
    refine List.Pairwise.imp_of_mem ?_ hsort
    intro a b ha hb hr
    rw [hmemlen a ha, hmemlen b hb]
    exact hr
  have hfront2 : ∀ w ∈ all, lenOf st2 w ≤ lenOf st2 x + 1 := by
    intro w hw
    obtain ⟨j, hj⟩ := List.mem_iff_get?.mp hw
    rw [hmemlen w hw, hlenx]
    exact hfront x hx j w hj
  rcases hdisc with heq | ⟨hall2, hvnot, hvlen⟩
  · subst heq
    refine ⟨⟨hDT2, hW2, by omega, by omega, hallv2, hvm2, hile, h0,
      by rw [hmemlen 0 h0mem]; exact hlen0, hsort2, ?_⟩, hx,
      hTEq, hlen2, hpres, ⟨[], by simp⟩,
      v, hmv, hvmem, hfront2 v hvmem, fun w hw hnw => absurd hw hnw⟩
    intro v' hv' j u hu
    rw [hmemlen u (List.get?_mem hu), hmemlen v' (List.get?_mem hv')]
    exact hfront v' hv' j u hu
  · subst hall2
    have hvlen2 : lenOf st2 v = lenOf st2 x + 1 := by
      rw [hvlen, hlenx]
    refine ⟨⟨hDT2, hW2, by omega, by omega, hallv2, hvm2,
      by simp; omega, by rw [List.get?_append h0lt]; exact h0,
      by rw [hmemlen 0 h0mem]; exact hlen0, ?_, ?_⟩,
      by rw [List.get?_append hilt]; exact hx,
      hTEq, hlen2, hpres, ⟨[v], rfl⟩,
      v, hmv, by simp, by rw [hvlen2], ?_⟩
    · rw [List.pairwise_append]
      refine ⟨hsort2, List.pairwise_singleton _ _, ?_⟩
      intro a ha b hb
      rw [List.mem_singleton] at hb
      subst hb
      rw [hvlen2]
      exact hfront2 a ha
    · intro v' hv' j u hu
      rw [List.get?_append hilt, hx] at hv'
      have hv'x : v' = x := (Option.some.inj hv').symm
      subst hv'x
      by_cases hj : j < all.length
      · rw [List.get?_append hj] at hu
        exact le_trans (hfront2 u (List.get?_mem hu)) (by omega)
      · rw [List.get?_append_right (Nat.le_of_not_lt hj)] at hu
        have huv : u = v := by
          cases hmj : j - all.length with
          | zero =>
            rw [hmj] at hu
            exact (Option.some.inj hu).symm
          | succ m =>
            rw [hmj] at hu
            simp at hu
        subst huv
        omega
    · intro w hw hnw
      rcases List.mem_append.mp hw with hw | hw
      · exact absurd hw hnw
      · rw [List.mem_singleton] at hw
        subst hw
        exact ⟨rfl, hvlen2⟩

/-- Processing one representative `x = all[i]` (the three neighbour
discoveries `x·b`, `x·ac`, `x·ca` of one loop iteration) preserves the
invariant with the processing index advanced, never mutates visited nodes,
only appends to the discovery list, produces all three products as
representatives discovered at distance at most `x`'s plus one, and any
representative discovered during this iteration is one of the three products
at distance exactly `x`'s plus one. -/
lemma prepStep_spec {fuel hac hca : Nat} {st : Store} {all : List Nat} {i x : Nat}
    {s1 s2 s3 : Store × List Nat}
    (hx : all.get? i = some x)
    (h1 : visitStep fuel st all x 2 'b' = some s1)
    (h2 : visitStep fuel s1.1 s1.2 x hac 'A' = some s2)
    (h3 : visitStep fuel s2.1 s2.2 x hca 'C' = some s3)
    (hInv : PrepInv hac hca st all i) :
    PrepInv hac hca s3.1 s3.2 (i + 1) ∧
    TEq st s3.1 ∧ st.length ≤ s3.1.length ∧
    (∀ y, y < st.length → (st.getD y grig_I).visited = true →
      s3.1.getD y grig_I = st.getD y grig_I) ∧
    (∃ t, s3.2 = all ++ t) ∧
    (∀ g, g ∈ [2, hac, hca] → ∃ v, mulF fuel s3.1 x g = some (s3.1, v) ∧
      v ∈ s3.2 ∧ lenOf s3.1 v ≤ lenOf s3.1 x + 1) ∧
    (∀ w ∈ s3.2, w ∉ all → ∃ g, g ∈ [2, hac, hca] ∧
      mulF fuel s3.1 x g = some (s3.1, w) ∧
      lenOf s3.1 w = lenOf s3.1 x + 1) := by
  have h2lt : (2 : Nat) < st.length := by
    have h5 := hInv.2.1.1
    omega
  have hac0 : hac < st.length := hInv.2.2.1
  have hca0 : hca < st.length := hInv.2.2.2.1
  obtain ⟨hI1, hx1, hT1, hL1, hP1, ⟨t1, ht1⟩, v1, hm1, hv1mem, hv1len, hn1⟩ :=
    visitStep_inv h1 h2lt hInv hx
  obtain ⟨hI2, hx2, hT2, hL2, hP2, ⟨t2, ht2⟩, v2, hm2, hv2mem, hv2len, hn2⟩ :=
    visitStep_inv h2 (by omega) hI1 hx1
  obtain ⟨hI3, hx3, hT3, hL3, hP3, ⟨t3, ht3⟩, v3, hm3, hv3mem, hv3len, hn3⟩ :=
    visitStep_inv h3 (by omega) hI2 hx2
  obtain ⟨hDT1, hW1, _, _, hallv1, hvm1, _, _, _, _, _⟩ := hI1
  obtain ⟨hDT2, hW2, _, _, hallv2, hvm2, _, _, _, _, _⟩ := hI2
  obtain ⟨hDT3, hW3, hhac3, hhca3, hallv3, hvm3, hile3, h03, hlen03, hsort3, hfront3⟩ := hI3
  have vis1 : ∀ y ∈ s1.2, ((s1.1.getD y grig_I).visited = true) :=
    fun y hy => (hvm1 y (hallv1 y hy)).mpr hy
  have vis2 : ∀ y ∈ s2.2, ((s2.1.getD y grig_I).visited = true) :=
    fun y hy => (hvm2 y (hallv2 y hy)).mpr hy
  have pres13 : ∀ y, y < s1.1.length → (s1.1.getD y grig_I).visited = true →
      s3.1.getD y grig_I = s1.1.getD y grig_I := by
    intro y hy hv
    have e2 := hP2 y hy hv
    have hv2' : (s2.1.getD y grig_I).visited = true := by
      rw [e2]
      exact hv
    rw [hP3 y (by omega) hv2', e2]
  have pres03 : ∀ y, y < st.length → (st.getD y grig_I).visited = true →
      s3.1.getD y grig_I = st.getD y grig_I := by
    intro y hy hv
    have e1 := hP1 y hy hv
    have hv1' : (s1.1.getD y grig_I).visited = true := by
      rw [e1]
      exact hv
    rw [pres13 y (by omega) hv1', e1]
  have hsub12 : ∀ y ∈ s1.2, y ∈ s2.2 := by
    intro y hy
    rw [ht2]
    exact List.mem_append_left _ hy
  have hsub23 : ∀ y ∈ s2.2, y ∈ s3.2 := by
    intro y hy
    rw [ht3]
    exact List.mem_append_left _ hy
  have hx1mem : x ∈ s1.2 := List.get?_mem hx1
  have hx2mem : x ∈ s2.2 := List.get?_mem hx2
  have lx13 : lenOf s3.1 x = lenOf s1.1 x := by
    rw [lenOf, lenOf, pres13 x (hallv1 x hx1mem) (vis1 x hx1mem)]
  have lx23 : lenOf s3.1 x = lenOf s2.1 x := by
    rw [lenOf, lenOf, hP3 x (hallv2 x hx2mem) (vis2 x hx2mem)]
  have lv1 : lenOf s3.1 v1 = lenOf s1.1 v1 := by
    rw [lenOf, lenOf, pres13 v1 (hallv1 v1 hv1mem) (vis1 v1 hv1mem)]
  have lv2 : lenOf s3.1 v2 = lenOf s2.1 v2 := by
    rw [lenOf, lenOf, hP3 v2 (hallv2 v2 hv2mem) (vis2 v2 hv2mem)]
  have hm1' : mulF fuel s3.1 x 2 = some (s3.1, v1) :=
    mulF_stable _ _ _ _ _ _ hm1 s3.1 (tEq_trans hT2 hT3) hDT3
  have hm2' : mulF fuel s3.1 x hac = some (s3.1, v2) :=
    mulF_stable _ _ _ _ _ _ hm2 s3.1 hT3 hDT3
  have hilt3 : i < s3.2.length := by
    by_contra hcon
    rw [List.get?_eq_none.mpr (Nat.le_of_not_lt hcon)] at hx3
    exact Option.noConfusion hx3
  refine ⟨⟨hDT3, hW3, hhac3, hhca3, hallv3, hvm3, by omega, h03, hlen03, hsort3, ?_⟩,
    tEq_trans hT1 (tEq_trans hT2 hT3), by omega, pres03,
    ⟨t1 ++ t2 ++ t3, by rw [ht3, ht2, ht1]; simp⟩, ?_, ?_⟩
  · intro v' hv' j u hu
    have hxv' : lenOf s3.1 x ≤ lenOf s3.1 v' :=
      pairwise_get? hsort3 (Nat.lt_succ_self i) hx3 hv'
    have := hfront3 x hx3 j u hu
    omega
  · intro g hg
    simp only [List.mem_cons, List.not_mem_nil, or_false] at hg
    rcases hg with hg | hg | hg
    · subst hg
      refine ⟨v1, hm1', hsub23 v1 (hsub12 v1 hv1mem), ?_⟩
      rw [lv1, lx13]
      exact hv1len
    · subst hg
      refine ⟨v2, hm2', hsub23 v2 hv2mem, ?_⟩
      rw [lv2, lx23]
      exact hv2len
    · subst hg
      exact ⟨v3, hm3, hv3mem, hv3len⟩
  · intro w hw hnw
    by_cases hw2 : w ∈ s2.2
    · by_cases hw1 : w ∈ s1.2
      · obtain ⟨hweq, hwlen⟩ := hn1 w hw1 hnw
        subst hweq
        refine ⟨2, by simp, hm1', ?_⟩
        rw [lv1, lx13]
        exact hwlen
      · obtain ⟨hweq, hwlen⟩ := hn2 w hw2 hw1
        subst hweq
        refine ⟨hac, by simp, hm2', ?_⟩
        rw [lv2, lx23]
        exact hwlen
    · obtain ⟨hweq, hwlen⟩ := hn3 w hw hw2
      subst hweq
      exact ⟨hca, by simp, hm3, hwlen⟩

lemma prepLoop_succ (fuel hac hca b : Nat) (st : Store) (all : List Nat) (i : Nat) :
    prepLoop fuel hac hca (b + 1) st all i =
      match all.get? i with
      | none => none
      | some x =>
        (visitStep fuel st all x 2 'b').bind fun s1 =>
          (visitStep fuel s1.1 s1.2 x hac 'A').bind fun s2 =>
            (visitStep fuel s2.1 s2.2 x hca 'C').bind fun s3 =>
              prepLoop fuel hac hca b s3.1 s3.2 (i + 1) := rfl

/-- Running the BFS loop for `b` iterations starting at index `i` preserves
the invariant, only appends to the store and the discovery list, never
mutates visited nodes, gives every processed index a representative whose
three products are discovered at distance at most one more, and assigns
every representative discovered during the run a distance of exactly one
more than some processed representative that produces it. -/
lemma prepLoop_spec {fuel hac hca : Nat} :
    ∀ (b : Nat) (st : Store) (all : List Nat) (i : Nat) (st' : Store) (all' : List Nat),
      prepLoop fuel hac hca b st all i = some (st', all') →
      PrepInv hac hca st all i →
      PrepInv hac hca st' all' (i + b) ∧
      TEq st st' ∧ st.length ≤ st'.length ∧
      (∀ y, y < st.length → (st.getD y grig_I).visited = true →
        st'.getD y grig_I = st.getD y grig_I) ∧
      (∃ t, all' = all ++ t) ∧
      (∀ j, i ≤ j → j < i + b → ∃ u, all'.get? j = some u ∧
        ∀ g, g ∈ [2, hac, hca] → ∃ v, mulF fuel st' u g = some (st', v) ∧
          v ∈ all' ∧ lenOf st' v ≤ lenOf st' u + 1) ∧
      (∀ w ∈ all', w ∉ all → ∃ j u, i ≤ j ∧ j < i + b ∧ all'.get? j = some u ∧
        ∃ g, g ∈ [2, hac, hca] ∧ mulF fuel st' u g = some (st', w) ∧
          lenOf st' w = lenOf st' u + 1) := by
  intro b
  induction b with
  | zero =>
    intro st all i st' all' h hInv
    have hp : st = st' ∧ all = all' := by
      have := Option.some.inj h
      exact ⟨congrArg Prod.fst this, congrArg Prod.snd this⟩
    obtain ⟨rfl, rfl⟩ := hp
    refine ⟨by rw [Nat.add_zero]; exact hInv, tEq_refl st, le_refl _,
      fun y _ _ => rfl, ⟨[], by simp⟩, ?_, ?_⟩
    · intro j hj1 hj2
      omega
    · intro w hw hnw
      exact absurd hw hnw
  | succ b ih =>
    intro st all i st' all' h hInv
    rw [prepLoop_succ] at h
    cases hgi : all.get? i with
    | none =>
      rw [hgi] at h
      exact Option.noConfusion h
    | some x =>
      rw [hgi] at h
      obtain ⟨s1, h1, h⟩ := Option.bind_eq_some.mp h
      obtain ⟨s2, h2, h⟩ := Option.bind_eq_some.mp h
      obtain ⟨s3, h3, h⟩ := Option.bind_eq_some.mp h
      obtain ⟨hI3, hT03, hL03, hP03, ⟨t0, ht0⟩, hprod, hdisc⟩ :=
        prepStep_spec hgi h1 h2 h3 hInv
      have hI3c := hI3
      obtain ⟨hIf, hTf, hLf, hPf, ⟨tf, htf⟩, hproc, hnew⟩ :=
        ih s3.1 s3.2 (i + 1) st' all' h hI3
      have hidx : i + 1 + b = i + (b + 1) := by omega
      rw [hidx] at hIf hproc hnew
      obtain ⟨_, _, _, _, hallv3, hvm3, _, _, _, _, _⟩ := hI3c
      obtain ⟨hDT', hW', hhac', hhca', hallv', hvm', hile', h0', hlen0', hsort', hfront'⟩ := hIf
      have hvis3 : ∀ y ∈ s3.2, (s3.1.getD y grig_I).visited = true :=
        fun y hy => (hvm3 y (hallv3 y hy)).mpr hy
      have llen : ∀ y ∈ s3.2, lenOf st' y = lenOf s3.1 y := by
        intro y hy
        rw [lenOf, lenOf, hPf y (hallv3 y hy) (hvis3 y hy)]
      have hsub : ∀ y ∈ s3.2, y ∈ all' := by
        intro y hy
        rw [htf]
        exact List.mem_append_left _ hy
      have hget : ∀ j u, s3.2.get? j = some u → all'.get? j = some u := by
        intro j u hu
        have hj : j < s3.2.length := by
          by_contra hcon
          rw [List.get?_eq_none.mpr (Nat.le_of_not_lt hcon)] at hu
          exact Option.noConfusion hu
        rw [htf, List.get?_append hj]
        exact hu
      have hilt : i < all.length := by
        by_contra hcon
        rw [List.get?_eq_none.mpr (Nat.le_of_not_lt hcon)] at hgi
        exact Option.noConfusion hgi
      have hxs3 : s3.2.get? i = some x := by
        rw [ht0, List.get?_append hilt]
        exact hgi
      have hxmem3 : x ∈ s3.2 := List.get?_mem hxs3
      refine ⟨⟨hDT', hW', hhac', hhca', hallv', hvm', hile', h0', hlen0', hsort', hfront'⟩,
        tEq_trans hT03 hTf, by omega, ?_, ⟨t0 ++ tf, by rw [htf, ht0]; simp⟩, ?_, ?_⟩
      · intro y hy hv
        have e := hP03 y hy hv
        have hv3 : (s3.1.getD y grig_I).visited = true := by
          rw [e]
          exact hv
        rw [hPf y (by omega) hv3, e]
      · intro j hj1 hj2
        by_cases hji : j = i
        · subst hji
          refine ⟨x, hget j x hxs3, ?_⟩
          intro g hg
          obtain ⟨v, hmv, hvmem, hvlen⟩ := hprod g hg
          refine ⟨v, mulF_stable _ _ _ _ _ _ hmv st' hTf hDT', hsub v hvmem, ?_⟩
          rw [llen v hvmem, llen x hxmem3]
          exact hvlen
        · exact hproc j (by omega) (by omega)
      · intro w hw hnw
        by_cases hw3 : w ∈ s3.2
        · have hnall : w ∉ all := hnw
          obtain ⟨g, hgmem, hmul, hlen⟩ := hdisc w hw3 hnall
          refine ⟨i, x, le_refl i, by omega, hget i x hxs3, g, hgmem,
            mulF_stable _ _ _ _ _ _ hmul st' hTf hDT', ?_⟩
          rw [llen w hw3, llen x hxmem3]
          exact hlen
        · obtain ⟨j, u, hj1, hj2, hju, hrest⟩ := hnew w hw hw3
          exact ⟨j, u, by omega, hj2, hju, hrest⟩

instance (st : Store) : Decidable (WFC st) := by
  unfold WFC
  infer_instance

lemma initStore_unvisited : ∀ n ∈ initStore, n.visited = false := by decide

/-- C8. Enumerator BFS distances: whenever `prepare` succeeds, the identity
representative is the first discovery and has distance 0, the assigned
distances (`len` fields) are non-decreasing in discovery order, every
processed representative's three products (by `b`, `ac`, `ca`) are discovered
at distance at most one more, and every discovered representative other than
the identity has distance exactly one plus the distance of some processed
representative that reaches it by multiplying by `b`, `ac`, or `ca` —
together: one plus the minimum distance over its processed predecessors. -/
theorem prepare_bfs (fuel budget : Nat) (st : Store) (all : List Nat) (hac hca : Nat)
    (h : prepare fuel budget = some (st, all, hac, hca)) :
    all.get? 0 = some 0 ∧
    lenOf st 0 = 0 ∧
    List.Pairwise (fun u v => lenOf st u ≤ lenOf st v) all ∧
    (∀ j, j < budget → ∃ u, all.get? j = some u ∧
      ∀ g, g ∈ [2, hac, hca] → ∃ v, mulF fuel st u g = some (st, v) ∧
        v ∈ all ∧ lenOf st v ≤ lenOf st u + 1) ∧
    (∀ v ∈ all, v ≠ 0 →
      ∃ j u, j < budget ∧ all.get? j = some u ∧
        ∃ g, g ∈ [2, hac, hca] ∧ mulF fuel st u g = some (st, v) ∧
          lenOf st v = lenOf st u + 1) := by
  rw [prepare] at h
  obtain ⟨qac, hqac, h⟩ := Option.bind_eq_some.mp h
  obtain ⟨qca, hqca, h⟩ := Option.bind_eq_some.mp h
  obtain ⟨res, hloop, h⟩ := Option.bind_eq_some.mp h
  have e := Option.some.inj h
  have e1 : res.1 = st := congrArg (fun p => p.1) e
  have e2 : res.2 = all := congrArg (fun p => p.2.1) e
  have e3 : qac.2 = hac := congrArg (fun p => p.2.2.1) e
  have e4 : qca.2 = hca := congrArg (fun p => p.2.2.2) e
  subst e1
  subst e2
  subst e3
  subst e4
  have hqac' : mulF fuel initStore 1 3 = some (qac.1, qac.2) := hqac
  have hqca' : mulF fuel qac.1 3 1 = some (qca.1, qca.2) := hqca
  have hExt1 : StoreExt initStore qac.1 := mulF_storeExt hqac'
  have hExt2 : StoreExt qac.1 qca.1 := mulF_storeExt hqca'
  have hi5 : initStore.length = 5 := rfl
  have hL1 : initStore.length ≤ qac.1.length := storeExt_length hExt1
  have hL2 : qac.1.length ≤ qca.1.length := storeExt_length hExt2
  have hDTi : DistinctTriples initStore := by decide
  have hWi : WFC initStore := by decide
  have hDT1 : DistinctTriples qac.1 := (mulF_ext_DT _ _ _ _ _ _ hqac').2 hDTi
  have hDT2 : DistinctTriples qca.1 := (mulF_ext_DT _ _ _ _ _ _ hqca').2 hDT1
  obtain ⟨hW1, hr1⟩ := mulF_valid _ _ _ _ _ _ hqac' hWi (by omega) (by omega)
  obtain ⟨hW2, hr2⟩ := mulF_valid _ _ _ _ _ _ hqca' hW1 (by omega) (by omega)
  have hunv : ∀ y, y < qca.1.length → (qca.1.getD y grig_I).visited = false := by
    intro y hy
    by_cases h1 : y < qac.1.length
    · by_cases h0 : y < initStore.length
      · cases hg0 : initStore.get? y with
        | none =>
          have := List.get?_eq_none.mp hg0
          omega
        | some n =>
          have ea : qac.1.get? y = some n := (storeExt_get? hExt1 h0).trans hg0
          have eb : qca.1.get? y = some n := (storeExt_get? hExt2 h1).trans ea
          rw [getD_of_get? eb]
          exact initStore_unvisited n (List.get?_mem hg0)
      · cases hg1 : qac.1.get? y with
        | none =>
          have := List.get?_eq_none.mp hg1
          omega
        | some n =>
          have eb : qca.1.get? y = some n := (storeExt_get? hExt2 h1).trans hg1
          rw [getD_of_get? eb]
          exact (mulF_new_nodes _ _ _ _ _ _ hqac' y n hg1 (Nat.le_of_not_lt h0)).1
    · cases hg2 : qca.1.get? y with
      | none =>
        have := List.get?_eq_none.mp hg2
        omega
      | some n =>
        rw [getD_of_get? hg2]
        exact (mulF_new_nodes _ _ _ _ _ _ hqca' y n hg2 (Nat.le_of_not_lt h1)).1
  have hv0 : qca.1.get? 0 = some grig_I := by
    rw [storeExt_get? hExt2 (by omega), storeExt_get? hExt1 (by omega)]
    rfl
  have hveq : visit qca.1 [] 0 (Char.ofNat 0) 0 =
      (qca.1.set 0 ⟨false, 0, 0, Char.ofNat 0, true, 0⟩, [0]) := by
    rw [visit_some [] (Char.ofNat 0) 0 hv0]
    rw [if_neg (by decide : ¬(grig_I.visited = true))]
    rfl
  rw [hveq] at hloop
  have hset0 : (qca.1.set 0 ⟨false, 0, 0, Char.ofNat 0, true, 0⟩).get? 0 =
      some ⟨false, 0, 0, Char.ofNat 0, true, 0⟩ :=
    get?_set_self qca.1 0 _ (by omega)
  have hInv0 : PrepInv qac.2 qca.2
      (qca.1.set 0 ⟨false, 0, 0, Char.ofNat 0, true, 0⟩) [0] 0 := by
    refine ⟨set_node_DT hv0 rfl hDT2,
      set_node_WFC hW2 (by show (0 : Nat) < qca.1.length; omega)
        (by show (0 : Nat) < qca.1.length; omega),
      ?_, ?_, ?_, ?_, by simp, rfl, ?_, List.pairwise_singleton _ _, ?_⟩
    · rw [List.length_set]
      omega
    · rw [List.length_set]
      omega
    · intro y hy
      rw [List.mem_singleton] at hy
      subst hy
      rw [List.length_set]
      omega
    · intro y hy
      rw [List.length_set] at hy
      by_cases hy0 : y = 0
      · subst hy0
        rw [getD_of_get? hset0]
        simp
      · have hne : (0 : Nat) ≠ y := fun he => hy0 he.symm
        cases hgy : qca.1.get? y with
        | none =>
          have := List.get?_eq_none.mp hgy
          omega
        | some n =>
          have hsy : (qca.1.set 0 ⟨false, 0, 0, Char.ofNat 0, true, 0⟩).get? y = some n := by
            rw [get?_set_other qca.1 0 y _ hne]
            exact hgy
          rw [getD_of_get? hsy]
          constructor
          · intro hvt
            have hf := hunv y hy
            rw [getD_of_get? hgy] at hf
            rw [hf] at hvt
            exact Bool.noConfusion hvt
          · intro hm
            rw [List.mem_singleton] at hm
            exact absurd hm hy0
    · rw [lenOf, getD_of_get? hset0]
    · intro v hv j u hu
      have hv' : 0 = v := Option.some.inj hv
      cases j with
      | zero =>
        have hu' : 0 = u := Option.some.inj hu
        subst hv'
        subst hu'
        omega
      | succ j => exact Option.noConfusion hu
  obtain ⟨hIf, _, _, _, _, hproc, hnew⟩ :=
    prepLoop_spec budget (qca.1.set 0 ⟨false, 0, 0, Char.ofNat 0, true, 0⟩) [0] 0
      res.1 res.2 hloop hInv0
  obtain ⟨_, _, _, _, _, _, _, h0f, hlen0f, hsortf, _⟩ := hIf
  refine ⟨h0f, hlen0f, hsortf, ?_, ?_⟩
  · intro j hj
    exact hproc j (Nat.zero_le j) (by omega)
  · intro v hv hne
    have hnotin : v ∉ [0] := by
      intro hm
      rw [List.mem_singleton] at hm
      exact hne hm
    obtain ⟨j, u, _, hjb, hju, grest⟩ := hnew v hv hnotin
    exact ⟨j, u, by omega, hju, grest⟩

theorem prepare_bfs_witness :
    prepare 64 1 = some
      ([⟨false, 0, 0, Char.ofNat 0, true, 0⟩,
        ⟨true, 0, 0, 'a', false, -1⟩,
        ⟨false, 1, 3, 'b', true, 1⟩,
        ⟨false, 1, 4, 'c', false, -1⟩,
        ⟨false, 0, 2, 'd', false, -1⟩,
        ⟨true, 1, 4, 'A', true, 1⟩,
        ⟨true, 4, 1, 'C', true, 1⟩], [0, 2, 5, 6], 5, 6) ∧
    (([0, 2, 5, 6] : List Nat).get? 0 = some 0 ∧
      lenOf [⟨false, 0, 0, Char.ofNat 0, true, 0⟩,
        ⟨true, 0, 0, 'a', false, -1⟩,
        ⟨false, 1, 3, 'b', true, 1⟩,
        ⟨false, 1, 4, 'c', false, -1⟩,
        ⟨false, 0, 2, 'd', false, -1⟩,
        ⟨true, 1, 4, 'A', true, 1⟩,
        ⟨true, 4, 1, 'C', true, 1⟩] 0 = 0 ∧
      List.Pairwise (fun u v =>
        lenOf [⟨false, 0, 0, Char.ofNat 0, true, 0⟩,
          ⟨true, 0, 0, 'a', false, -1⟩,
          ⟨false, 1, 3, 'b', true, 1⟩,
          ⟨false, 1, 4, 'c', false, -1⟩,
          ⟨false, 0, 2, 'd', false, -1⟩,
          ⟨true, 1, 4, 'A', true, 1⟩,
          ⟨true, 4, 1, 'C', true, 1⟩] u ≤
        lenOf [⟨false, 0, 0, Char.ofNat 0, true, 0⟩,
          ⟨true, 0, 0, 'a', false, -1⟩,
          ⟨false, 1, 3, 'b', true, 1⟩,
          ⟨false, 1, 4, 'c', false, -1⟩,
          ⟨false, 0, 2, 'd', false, -1⟩,
          ⟨true, 1, 4, 'A', true, 1⟩,
          ⟨true, 4, 1, 'C', true, 1⟩] v) [0, 2, 5, 6] ∧
      (∀ j, j < 1 → ∃ u, ([0, 2, 5, 6] : List Nat).get? j = some u ∧
        ∀ g, g ∈ [2, 5, 6] → ∃ v,
          mulF 64 [⟨false, 0, 0, Char.ofNat 0, true, 0⟩,
            ⟨true, 0, 0, 'a', false, -1⟩,
            ⟨false, 1, 3, 'b', true, 1⟩,
            ⟨false, 1, 4, 'c', false, -1⟩,
            ⟨false, 0, 2, 'd', false, -1⟩,
            ⟨true, 1, 4, 'A', true, 1⟩,
            ⟨true, 4, 1, 'C', true, 1⟩] u g =
            some ([⟨false, 0, 0, Char.ofNat 0, true, 0⟩,
              ⟨true, 0, 0, 'a', false, -1⟩,
              ⟨false, 1, 3, 'b', true, 1⟩,
              ⟨false, 1, 4, 'c', false, -1⟩,
              ⟨false, 0, 2, 'd', false, -1⟩,
              ⟨true, 1, 4, 'A', true, 1⟩,
              ⟨true, 4, 1, 'C', true, 1⟩], v) ∧
          v ∈ [0, 2, 5, 6] ∧
          lenOf [⟨false, 0, 0, Char.ofNat 0, true, 0⟩,
            ⟨true, 0, 0, 'a', false, -1⟩,
            ⟨false, 1, 3, 'b', true, 1⟩,
            ⟨false, 1, 4, 'c', false, -1⟩,
            ⟨false, 0, 2, 'd', false, -1⟩,
            ⟨true, 1, 4, 'A', true, 1⟩,
            ⟨true, 4, 1, 'C', true, 1⟩] v ≤
          lenOf [⟨false, 0, 0, Char.ofNat 0, true, 0⟩,
            ⟨true, 0, 0, 'a', false, -1⟩,
            ⟨false, 1, 3, 'b', true, 1⟩,
            ⟨false, 1, 4, 'c', false, -1⟩,
            ⟨false, 0, 2, 'd', false, -1⟩,
            ⟨true, 1, 4, 'A', true, 1⟩,
            ⟨true, 4, 1, 'C', true, 1⟩] u + 1) ∧
      (∀ v ∈ ([0, 2, 5, 6] : List Nat), v ≠ 0 →
        ∃ j u, j < 1 ∧ ([0, 2, 5, 6] : List Nat).get? j = some u ∧
          ∃ g, g ∈ [2, 5, 6] ∧
            mulF 64 [⟨false, 0, 0, Char.ofNat 0, true, 0⟩,
              ⟨true, 0, 0, 'a', false, -1⟩,
              ⟨false, 1, 3, 'b', true, 1⟩,
              ⟨false, 1, 4, 'c', false, -1⟩,
              ⟨false, 0, 2, 'd', false, -1⟩,
              ⟨true, 1, 4, 'A', true, 1⟩,
              ⟨true, 4, 1, 'C', true, 1⟩] u g =
              some ([⟨false, 0, 0, Char.ofNat 0, true, 0⟩,
                ⟨true, 0, 0, 'a', false, -1⟩,
                ⟨false, 1, 3, 'b', true, 1⟩,
                ⟨false, 1, 4, 'c', false, -1⟩,
                ⟨false, 0, 2, 'd', false, -1⟩,
                ⟨true, 1, 4, 'A', true, 1⟩,
                ⟨true, 4, 1, 'C', true, 1⟩], v) ∧
            lenOf [⟨false, 0, 0, Char.ofNat 0, true, 0⟩,
              ⟨true, 0, 0, 'a', false, -1⟩,
              ⟨false, 1, 3, 'b', true, 1⟩,
              ⟨false, 1, 4, 'c', false, -1⟩,
              ⟨false, 0, 2, 'd', false, -1⟩,
              ⟨true, 1, 4, 'A', true, 1⟩,
              ⟨true, 4, 1, 'C', true, 1⟩] v =
            lenOf [⟨false, 0, 0, Char.ofNat 0, true, 0⟩,
              ⟨true, 0, 0, 'a', false, -1⟩,
              ⟨false, 1, 3, 'b', true, 1⟩,
              ⟨false, 1, 4, 'c', false, -1⟩,
              ⟨false, 0, 2, 'd', false, -1⟩,
              ⟨true, 1, 4, 'A', true, 1⟩,
              ⟨true, 4, 1, 'C', true, 1⟩] u + 1)) :=
  ⟨by decide,
    prepare_bfs 64 1
      [⟨false, 0, 0, Char.ofNat 0, true, 0⟩,
        ⟨true, 0, 0, 'a', false, -1⟩,
        ⟨false, 1, 3, 'b', true, 1⟩,
        ⟨false, 1, 4, 'c', false, -1⟩,
        ⟨false, 0, 2, 'd', false, -1⟩,
        ⟨true, 1, 4, 'A', true, 1⟩,
        ⟨true, 4, 1, 'C', true, 1⟩] [0, 2, 5, 6] 5 6 (by decide)⟩
